import Mathlib

/-!
Verification development for the process-gpt-crewai-deep-research repository.

The definitions below are a shallow embedding of the code under scrutiny:

* `src/src/parallel/feedback/diff_util.py` (`extract_changes`,
  `compare_report_changes` and their helpers), together with the parts of
  Python's standard-library `difflib` that `extract_changes` calls
  (`unified_diff`, which runs on `SequenceMatcher(None, a, b)`): the
  library functions are embedded from CPython's reference implementation,
  since their exact line-tagging behaviour is what the repository's code
  consumes;
* `src/src/parallel/feedback/agent_feedback_analyzer.py`
  (`generate_feedback_from_diff_result`), with the one model call
  abstracted as a function argument;
* `src/flows/multi_format_flow.py` (`clean_json_response`, the report
  section loop `_generate_section_contents`, the merge
  `_merge_report_sections` / `_save_intermediate_result`, the slide loop
  `generate_slides`/`_create_slides`, the text phase `generate_texts`, and
  the parse sites `create_execution_plan` / `_parse_text_results`), with
  every crew/LLM invocation abstracted as a function argument and the
  completion order of the concurrently generated sections made an explicit
  parameter (a list of section indices in completion order).

Python dictionaries that the code only reads and writes by string key are
embedded as association lists with last-write-wins update (`dictSet`),
which preserves insertion order and key uniqueness exactly as Python's
`dict` does.
-/

namespace PGPT

/-! ## Python dict on string keys (insertion ordered, unique keys) -/

/-- Lookup in an embedded Python dict (`d.get(k)` / `k in d`). -/
def dictGet {α : Type} (d : List (String × α)) (k : String) : Option α :=
  match d with
  | [] => none
  | (k', v) :: rest => if k' = k then some v else dictGet rest k

/-- `k in d`. -/
def dictMem {α : Type} (d : List (String × α)) (k : String) : Bool :=
  (dictGet d k).isSome

/-- `d.get(k, dflt)`. -/
def dictGetD {α : Type} (d : List (String × α)) (k : String) (dflt : α) : α :=
  (dictGet d k).getD dflt

/-- `d[k] = v`: replace in place if the key exists, else append
(Python dict insertion-order semantics). -/
def dictSet {α : Type} (d : List (String × α)) (k : String) (v : α) :
    List (String × α) :=
  match d with
  | [] => [(k, v)]
  | (k', v') :: rest =>
    if k' = k then (k', v) :: rest else (k', v') :: dictSet rest k v

/-- `list(d.keys())`. -/
def dictKeys {α : Type} (d : List (String × α)) : List String := d.map Prod.fst

/-- `d.update(d2)` (insert every entry of `d2`, in order). -/
def dictUpdate {α : Type} (d d2 : List (String × α)) : List (String × α) :=
  d2.foldl (fun acc (kv : String × α) => dictSet acc kv.1 kv.2) d

/-- Truthiness of a Python string (`if s:`): false exactly on `""`. -/
def pyTruthyStr (s : String) : Bool := !(s == "")

/-- Python `s.startswith(pre)`: prefix test on the character sequence. -/
def pyStartsWith (s pre : String) : Bool := pre.data.isPrefixOf s.data

/-- Python `s.endswith(suf)`: suffix test on the character sequence. -/
def pyEndsWith (s suf : String) : Bool := suf.data.isSuffixOf s.data

/-- Python `s[n:]`: drop the first `n` characters. -/
def pyDrop (s : String) (n : Nat) : String := String.mk (s.data.drop n)

/-- The whitespace characters Python `str.strip()` removes (the ASCII
ones; the handful of stripped non-ASCII spaces never occur in the flows'
inputs). -/
def isPySpace (c : Char) : Bool :=
  c = ' ' ∨ c = '\t' ∨ c = '\n' ∨ c = '\r' ∨ c = '\x0b' ∨ c = '\x0c'

/-- Python `s.strip()`. -/
def pyStrip (s : String) : String :=
  String.mk (((s.data.dropWhile isPySpace).reverse.dropWhile isPySpace).reverse)

/-- Python `s.split(sep)` for a one-character separator: keeps empty
segments and the trailing segment. -/
def pySplitCharAux (sep : Char) (acc : List Char) : List Char → List String
  | [] => [String.mk acc.reverse]
  | c :: rest =>
    if c = sep then String.mk acc.reverse :: pySplitCharAux sep [] rest
    else pySplitCharAux sep (c :: acc) rest

/-- Python `s.split(sep)` for a one-character separator. -/
def pySplitChar (s : String) (sep : Char) : List String :=
  pySplitCharAux sep [] s.data

/-- Truthiness of an `Optional[str]` (`if x:`): false on `None` and `""`. -/
def pyTruthyOptStr (s : Option String) : Bool :=
  match s with
  | none => false
  | some s => pyTruthyStr s

/-! ## CPython `difflib` (the part `extract_changes` runs)

`extract_changes` calls
`difflib.unified_diff(original_lines, modified_lines, lineterm='', n=0)`,
which internally builds `SequenceMatcher(None, a, b)` (no junk predicate,
autojunk on).  The definitions below embed that call chain:
`__chain_b` (the `b2j` index with the popular-entry purge),
`find_longest_match`, `get_matching_blocks`, `get_opcodes`,
`get_grouped_opcodes` and the `unified_diff` line generator. -/

/-- `b2j` before the autojunk purge: for a value `v`, the ascending list of
positions `j` with `b[j] == v` (CPython builds it by appending the indices
of `b` in order, so the lists are ascending). -/
def b2jRaw (b : List String) (v : String) : List Nat :=
  (List.range b.length).filter (fun j => b.get? j = some v)

/-- `b2j` after the autojunk purge: with `n = len(b) >= 200`, entries whose
position list is longer than `n // 100 + 1` ("popular" entries) are deleted,
so lookups on them return the empty default list. -/
def b2jFun (b : List String) (v : String) : List Nat :=
  if 200 ≤ b.length ∧ b.length / 100 + 1 < (b2jRaw b v).length then []
  else b2jRaw b v

/-- State of `find_longest_match`'s inner loop: the best match triple
`(besti, bestj, bestsize)` and the `newj2len` dict (as a total function
defaulting to 0, which is how the Python dict is read: `j2len.get(j-1, 0)`). -/
abbrev FlmState := (Nat × Nat × Nat) × (Nat → Nat)

/-- One row of `find_longest_match`'s inner loop: iterate the position list
`b2j[a[i]]` (ascending); skip `j < blo` (`continue`), stop at `j >= bhi`
(`break`); otherwise `k = newj2len[j] = j2len.get(j-1, 0) + 1`, and the best
triple is replaced when `k > bestsize`.  `j2len.get(j-1, 0)` with `j = 0`
reads Python key `-1`, which is never present, hence the `j = 0` case. -/
def procJs (blo bhi : Nat) (j2len : Nat → Nat) (i : Nat) :
    List Nat → FlmState → FlmState
  | [], st => st
  | j :: rest, ((bi, bj, bs), nw) =>
    if j < blo then procJs blo bhi j2len i rest ((bi, bj, bs), nw)
    else if bhi ≤ j then ((bi, bj, bs), nw)
    else
      let k := (if j = 0 then 0 else j2len (j - 1)) + 1
      let nw' := fun j' => if j' = j then k else nw j'
      let best' := if bs < k then (i + 1 - k, j + 1 - k, k) else (bi, bj, bs)
      procJs blo bhi j2len i rest (best', nw')

/-- The row loop `for i in range(alo, ahi)` of `find_longest_match`:
`cnt` rows remain, the current row index is `i`; each row starts from an
empty `newj2len` and installs it as `j2len` for the next row. -/
def procRows (b2j : String → List Nat) (a : List String) (blo bhi : Nat) :
    Nat → Nat → FlmState → FlmState
  | _, 0, st => st
  | i, cnt + 1, (best, j2len) =>
    let js := b2j (a.getD i "")
    let (best', nw') := procJs blo bhi j2len i js (best, fun _ => 0)
    procRows b2j a blo bhi (i + 1) cnt (best', nw')

/-- Backward extension loop of `find_longest_match`
(`while besti > alo and bestj > blo and pred(b[bestj-1]) and
a[besti-1] == b[bestj-1]`), structurally recursive on `besti`.
`pred` is `not isbjunk` for the first pair of loops and `isbjunk` for the
second; with no junk predicate `isbjunk` is membership in the empty set. -/
def extBack (a b : List String) (alo blo : Nat) (pred : String → Bool) :
    Nat → Nat → Nat → Nat × Nat × Nat
  | 0, bj, bs => (0, bj, bs)
  | bi + 1, bj, bs =>
    if alo < bi + 1 ∧ blo < bj ∧ pred (b.getD (bj - 1) "") = true ∧
        a.getD bi "" = b.getD (bj - 1) "" then
      extBack a b alo blo pred bi (bj - 1) (bs + 1)
    else (bi + 1, bj, bs)

/-- Forward extension loop of `find_longest_match`
(`while besti+bestsize < ahi and bestj+bestsize < bhi and
pred(b[bestj+bestsize]) and a[besti+bestsize] == b[bestj+bestsize]`).
The loop runs at most `ahi - (besti + bestsize)` times, so a fuel argument
instantiated with `ahi` at the call site always suffices. -/
def extFwd (a b : List String) (ahi bhi : Nat) (pred : String → Bool)
    (bi bj : Nat) : Nat → Nat → Nat
  | 0, bs => bs
  | fuel + 1, bs =>
    if bi + bs < ahi ∧ bj + bs < bhi ∧ pred (b.getD (bj + bs) "") = true ∧
        a.getD (bi + bs) "" = b.getD (bj + bs) "" then
      extFwd a b ahi bhi pred bi bj fuel (bs + 1)
    else bs

/-- `SequenceMatcher.find_longest_match(alo, ahi, blo, bhi)` for
`SequenceMatcher(None, a, b)`: the `j2len` row loop, then the two non-junk
extension loops, then the two junk extension loops (with `isjunk=None` the
junk set `bjunk` is empty, so the junk loops never move, but they are kept
to mirror the source). -/
def findLongestMatch (a b : List String) (b2j : String → List Nat)
    (alo ahi blo bhi : Nat) : Nat × Nat × Nat :=
  let st0 : FlmState := ((alo, blo, 0), fun _ => 0)
  let ((bi0, bj0, bs0), _) := procRows b2j a blo bhi alo (ahi - alo) st0
  let notjunk : String → Bool := fun _ => true
  let isjunk : String → Bool := fun _ => false
  let (bi1, bj1, bs1) := extBack a b alo blo notjunk bi0 bj0 bs0
  let bs2 := extFwd a b ahi bhi notjunk bi1 bj1 ahi bs1
  let (bi3, bj3, bs3) := extBack a b alo blo isjunk bi1 bj1 bs2
  let bs4 := extFwd a b ahi bhi isjunk bi3 bj3 ahi bs3
  (bi3, bj3, bs4)

/-- The queue loop of `get_matching_blocks`.  Python keeps a LIFO list and
pops from the end after appending the left then the right subrange, so the
right subrange is processed first; here the queue head is the next popped
range and pushes happen at the front in the same effective order.  Each
iteration either shrinks the total queued range size (`k > 0`) or the queue
length (`k = 0`), so fuel `2*(len a + len b) + 2` chosen at the call site is
always sufficient. -/
def mbLoop (a b : List String) (b2j : String → List Nat) :
    Nat → List (Nat × Nat × Nat × Nat) → List (Nat × Nat × Nat) →
    List (Nat × Nat × Nat)
  | _, [], acc => acc
  | 0, _ :: _, acc => acc
  | fuel + 1, (alo, ahi, blo, bhi) :: rest, acc =>
    let (i, j, k) := findLongestMatch a b b2j alo ahi blo bhi
    if k ≠ 0 then
      let q2 := if i + k < ahi ∧ j + k < bhi then [(i + k, ahi, j + k, bhi)] else []
      let q1 := if alo < i ∧ blo < j then [(alo, i, blo, j)] else []
      mbLoop a b b2j fuel (q2 ++ q1 ++ rest) (acc ++ [(i, j, k)])
    else
      mbLoop a b b2j fuel rest acc

/-- Lexicographic order on the `(i, j, size)` triples, used by
`matching_blocks.sort()`. -/
def tripleLe (x y : Nat × Nat × Nat) : Bool :=
  x.1 < y.1 ∨ (x.1 = y.1 ∧ (x.2.1 < y.2.1 ∨ (x.2.1 = y.2.1 ∧ x.2.2 ≤ y.2.2)))

/-- Insert a triple behind every triple that is `tripleLe` it (stable
insertion). -/
def insertTriple (x : Nat × Nat × Nat) : List (Nat × Nat × Nat) → List (Nat × Nat × Nat)
  | [] => [x]
  | y :: ys => if tripleLe y x then y :: insertTriple x ys else x :: y :: ys

/-- `matching_blocks.sort()`: a stable sort under the total lexicographic
order on triples (any stable sort computes the same list Python's does). -/
def sortTriples (l : List (Nat × Nat × Nat)) : List (Nat × Nat × Nat) :=
  l.foldl (fun acc x => insertTriple x acc) []

/-- The adjacent-block merge at the end of `get_matching_blocks`. -/
def mergeAdjacent (i1 j1 k1 : Nat) :
    List (Nat × Nat × Nat) → List (Nat × Nat × Nat)
  | [] => if k1 ≠ 0 then [(i1, j1, k1)] else []
  | (i2, j2, k2) :: rest =>
    if i1 + k1 = i2 ∧ j1 + k1 = j2 then mergeAdjacent i1 j1 (k1 + k2) rest
    else if k1 ≠ 0 then (i1, j1, k1) :: mergeAdjacent i2 j2 k2 rest
    else mergeAdjacent i2 j2 k2 rest

/-- `SequenceMatcher.get_matching_blocks()`: run the queue loop from the
full ranges, sort the collected triples, merge adjacent blocks and append
the `(la, lb, 0)` sentinel. -/
def getMatchingBlocks (a b : List String) : List (Nat × Nat × Nat) :=
  let b2j := b2jFun b
  let blocks := mbLoop a b b2j (2 * (a.length + b.length) + 2)
    [(0, a.length, 0, b.length)] []
  mergeAdjacent 0 0 0 (sortTriples blocks) ++ [(a.length, b.length, 0)]

/-- Opcode tags of `get_opcodes`. -/
inductive DTag where
  | replace
  | delete
  | insert
  | equal
  deriving DecidableEq, Repr

/-- The loop body of `get_opcodes`, carrying the cursor pair `(i, j)`. -/
def opcodesLoop (i j : Nat) :
    List (Nat × Nat × Nat) → List (DTag × Nat × Nat × Nat × Nat)
  | [] => []
  | (ai, bj, size) :: rest =>
    let tagged : List (DTag × Nat × Nat × Nat × Nat) :=
      if i < ai ∧ j < bj then [(DTag.replace, i, ai, j, bj)]
      else if i < ai then [(DTag.delete, i, ai, j, bj)]
      else if j < bj then [(DTag.insert, i, ai, j, bj)]
      else []
    let eqOp : List (DTag × Nat × Nat × Nat × Nat) :=
      if size ≠ 0 then [(DTag.equal, ai, ai + size, bj, bj + size)] else []
    tagged ++ eqOp ++ opcodesLoop (ai + size) (bj + size) rest

/-- `SequenceMatcher.get_opcodes()`. -/
def getOpcodes (a b : List String) : List (DTag × Nat × Nat × Nat × Nat) :=
  opcodesLoop 0 0 (getMatchingBlocks a b)

/-- The group-splitting loop of `get_grouped_opcodes`: an `equal` run longer
than `2n` appends its clipped head to the current group, yields the group,
and starts a new group at the clipped tail; every code is then appended to
the (possibly fresh) group.  A trailing group is yielded unless it is a
single `equal` code. -/
def groupLoop (n : Nat) (group : List (DTag × Nat × Nat × Nat × Nat))
    (acc : List (List (DTag × Nat × Nat × Nat × Nat))) :
    List (DTag × Nat × Nat × Nat × Nat) →
    List (List (DTag × Nat × Nat × Nat × Nat))
  | [] =>
    if group ≠ [] ∧
        ¬(group.length = 1 ∧ (group.headD (DTag.equal, 0, 0, 0, 0)).1 = DTag.equal) then
      acc ++ [group]
    else acc
  | (tag, i1, i2, j1, j2) :: rest =>
    if tag = DTag.equal ∧ n + n < i2 - i1 then
      let yielded := group ++ [(tag, i1, min i2 (i1 + n), j1, min j2 (j1 + n))]
      groupLoop n [(tag, max i1 (i2 - n), i2, max j1 (j2 - n), j2)] (acc ++ [yielded]) rest
    else
      groupLoop n (group ++ [(tag, i1, i2, j1, j2)]) acc rest

/-- `SequenceMatcher.get_grouped_opcodes(n)` (as the list of yielded
groups): empty opcodes are replaced by a dummy `equal` code, the first and
last `equal` codes are clipped to context width `n`, then the splitting
loop runs. -/
def groupedOpcodes (a b : List String) (n : Nat) :
    List (List (DTag × Nat × Nat × Nat × Nat)) :=
  let codes0 := getOpcodes a b
  let codes1 := if codes0 = [] then [(DTag.equal, 0, 1, 0, 1)] else codes0
  let codes2 :=
    match codes1 with
    | (DTag.equal, i1, i2, j1, j2) :: rest =>
      (DTag.equal, max i1 (i2 - n), i2, max j1 (j2 - n), j2) :: rest
    | other => other
  let codes3 :=
    match codes2.reverse with
    | (DTag.equal, i1, i2, j1, j2) :: revRest =>
      ((DTag.equal, i1, min i2 (i1 + n), j1, min j2 (j1 + n)) :: revRest).reverse
    | _ => codes2
  groupLoop n [] [] codes3

/-- `difflib._format_range_unified(start, stop)`. -/
def formatRangeUnified (start stop : Nat) : String :=
  let length := stop - start
  if length = 1 then toString (start + 1)
  else if length = 0 then toString start ++ ",0"
  else toString (start + 1) ++ "," ++ toString length

/-- The per-group lines of `unified_diff`: the `@@` hunk header, then
`' '`-prefixed context lines for `equal` codes, `'-'`-prefixed lines of `a`
for `replace`/`delete`, `'+'`-prefixed lines of `b` for
`replace`/`insert`. -/
def groupLines (a b : List String) (group : List (DTag × Nat × Nat × Nat × Nat)) :
    List String :=
  let first := group.headD (DTag.equal, 0, 0, 0, 0)
  let last := group.getLastD (DTag.equal, 0, 0, 0, 0)
  let header := "@@ -" ++ formatRangeUnified first.2.1 last.2.2.1 ++ " +" ++
    formatRangeUnified first.2.2.2.1 last.2.2.2.2 ++ " @@"
  header :: group.flatMap (fun (tag, i1, i2, j1, j2) =>
    if tag = DTag.equal then
      ((a.drop i1).take (i2 - i1)).map (fun line => " " ++ line)
    else
      (if tag = DTag.replace ∨ tag = DTag.delete then
        ((a.drop i1).take (i2 - i1)).map (fun line => "-" ++ line)
      else []) ++
      (if tag = DTag.replace ∨ tag = DTag.insert then
        ((b.drop j1).take (j2 - j1)).map (fun line => "+" ++ line)
      else []))

/-- `list(difflib.unified_diff(a, b, lineterm='', n=0))` as called by
`extract_changes`: with the default empty file names and dates and
`lineterm=''`, the two header lines are `"--- "` and `"+++ "`, emitted only
when at least one group exists. -/
def unifiedDiffLines (a b : List String) (n : Nat) : List String :=
  let groups := groupedOpcodes a b n
  if groups = [] then []
  else "--- " :: "+++ " :: groups.flatMap (groupLines a b)

/-! ## `diff_util.py` -/

/-- Python line-boundary characters recognised by `str.splitlines`
(`\r\n` is handled as one boundary in `pySplitlines` itself). -/
def isLineBoundary (c : Char) : Bool :=
  c = '\n' ∨ c = '\r' ∨ c = '\x0b' ∨ c = '\x0c' ∨ c = '\x1c' ∨ c = '\x1d' ∨
    c = '\x1e' ∨ c = '\x85' ∨ c = '\u2028' ∨ c = '\u2029'

/-- `str.splitlines()` on the character list, carrying the (reversed)
current line. -/
def pySplitlinesAux : List Char → List Char → List String
  | [], acc => if acc.isEmpty then [] else [String.mk acc.reverse]
  | '\r' :: '\n' :: rest, acc => String.mk acc.reverse :: pySplitlinesAux rest []
  | c :: rest, acc =>
    if isLineBoundary c then String.mk acc.reverse :: pySplitlinesAux rest []
    else pySplitlinesAux rest (c :: acc)

/-- Python `str.splitlines()` (no trailing empty line for a trailing
boundary; `""` gives `[]`). -/
def pySplitlines (s : String) : List String := pySplitlinesAux s.data []

/-- The `ChangeSet` returned by `extract_changes`. -/
structure ChangeSet where
  insertions : List String
  deletions : List String
  has_changes : Bool
  deriving DecidableEq, Repr

/-- The tagging loop of `extract_changes`: a diff line starting with `+`
but not `+++` contributes to the insertions (marker stripped), else one
starting with `-` but not `---` to the deletions. -/
def extractLoop : List String → List String × List String
  | [] => ([], [])
  | line :: rest =>
    let (ins, del) := extractLoop rest
    if pyStartsWith line "+" && !pyStartsWith line "+++" then
      (pyDrop line 1 :: ins, del)
    else if pyStartsWith line "-" && !pyStartsWith line "---" then
      (ins, pyDrop line 1 :: del)
    else (ins, del)

/-- `diff_util.extract_changes(original, modified)`: short-circuit when
both inputs are falsy (empty), else split into lines, run
`difflib.unified_diff(..., lineterm='', n=0)` and tag the `+`/`-` lines;
`has_changes` is the truthiness of `insertions or deletions`. -/
def extract_changes (original modified : String) : ChangeSet :=
  if ¬ pyTruthyStr original ∧ ¬ pyTruthyStr modified then
    ⟨[], [], false⟩
  else
    let original_lines := pySplitlines original
    let modified_lines := pySplitlines modified
    let diff := unifiedDiffLines original_lines modified_lines 0
    let (insertions, deletions) := extractLoop diff
    ⟨insertions, deletions, !(insertions.isEmpty && deletions.isEmpty)⟩

/-- Embedded Python/JSON values, as far as the compared payloads need. -/
inductive PyVal where
  | str : String → PyVal
  | dict : List (String × PyVal) → PyVal
  | list : List PyVal → PyVal

/-- Python `str(value)` for the values that reach a comparison.  The
compared report payloads are strings; for the sake of totality a non-string
value is rendered as a marker (Python would render its `repr`, which no
code path under verification ever compares). -/
def pyValStr : PyVal → String
  | .str s => s
  | .dict _ => "<dict>"
  | .list _ => "<list>"

/-- `_extract_draft_contents` on an already-parsed value (the source
accepts either a JSON string or a parsed dict; the embedding takes the
parsed value): return `data['reports']` when it is a dict, else `{}`. -/
def extractDraftContents : PyVal → List (String × PyVal)
  | .dict d =>
    match dictGet d "reports" with
    | some (.dict r) => r
    | _ => []
  | _ => []

/-- `_extract_output_contents` on an already-parsed value: scan every
top-level container that is a dict and collect, per target form key, the
value found under it (a later container overwrites an earlier one, as the
repeated `result[form_key] = ...` assignment does). -/
def extractOutputContents (data : PyVal) (targetFormKeys : List String) :
    List (String × PyVal) :=
  match data with
  | .dict d =>
    d.foldl (fun acc (kv : String × PyVal) =>
      match kv.2 with
      | .dict mv =>
        targetFormKeys.foldl (fun acc' fk =>
          match dictGet mv fk with
          | some v => dictSet acc' fk v
          | none => acc') acc
      | _ => acc) []
  | _ => []

/-- `_create_simple_diff(changes, key)`: the `=== key ===` header, then the
non-blank deleted lines, then the non-blank inserted lines. -/
def createSimpleDiff (changes : ChangeSet) (key : String) : String :=
  let delLines :=
    if changes.deletions ≠ [] then
      "- 삭제된 줄:" ::
        (changes.deletions.filter (fun d => pyTruthyStr (pyStrip d))).map (fun d => "  - " ++ d)
    else []
  let insLines :=
    if changes.insertions ≠ [] then
      "+ 추가된 줄:" ::
        (changes.insertions.filter (fun d => pyTruthyStr (pyStrip d))).map (fun d => "  + " ++ d)
    else []
  String.intercalate "\n" (("=== " ++ key ++ " ===") :: (delLines ++ insLines))

/-- One entry of `compare_report_changes`' `comparisons` list. -/
structure Comparison where
  key : String
  draft_content : String
  output_content : String
  changes : ChangeSet
  diff_summary : String
  deriving DecidableEq, Repr

/-- The result dict of `compare_report_changes`. -/
structure DiffResult where
  unified_diff : String
  comparisons : List Comparison
  deriving DecidableEq, Repr

/-- The per-key loop of `compare_report_changes`: keys whose stringified
draft and output contents differ and whose `ChangeSet` reports changes
produce one diff block and one comparison entry. -/
def compareKeysLoop (draftReports outputReports : List (String × PyVal)) :
    List String → List String × List Comparison
  | [] => ([], [])
  | formKey :: rest =>
    let (uds, comps) := compareKeysLoop draftReports outputReports rest
    let draftContent := pyValStr (dictGetD draftReports formKey (.str ""))
    let outputContent := pyValStr (dictGetD outputReports formKey (.str ""))
    if draftContent ≠ outputContent then
      let changes := extract_changes draftContent outputContent
      if changes.has_changes then
        let diffSummary := createSimpleDiff changes formKey
        (diffSummary :: uds,
          ⟨formKey, draftContent, outputContent, changes, diffSummary⟩ :: comps)
      else (uds, comps)
    else (uds, comps)

/-- `compare_report_changes(draft, output)` on already-parsed values: the
draft's `reports` dict defines the candidate keys, the output's containers
are searched for them, and the changed keys are compared.  Python iterates
`all_keys` as a set in implementation-defined order; the embedding keeps
the draft keys' insertion order followed by any extra output keys (the
output extraction only ever returns draft keys, so the tail is empty). -/
def compareReportChanges (draft output : PyVal) : DiffResult :=
  let draftReports := extractDraftContents draft
  if draftReports.isEmpty then ⟨"", []⟩
  else
    let draftFormKeys := (dictKeys draftReports).dedup
    let outputReports := extractOutputContents output draftFormKeys
    let allKeys :=
      draftFormKeys ++
        ((dictKeys outputReports).dedup.filter (fun k => ¬ k ∈ draftFormKeys))
    let (uds, comps) := compareKeysLoop draftReports outputReports allKeys
    ⟨String.intercalate "\n\n" uds, comps⟩

/-! ## `agent_feedback_analyzer.py` -/

/-- The aggregation step of `generate_feedback_from_diff_result`: all
insertions and deletions across the comparisons, `has_changes` the
truthiness of `all_insertions or all_deletions`. -/
def aggregatedChanges (dr : DiffResult) : ChangeSet :=
  let allInsertions := dr.comparisons.flatMap (fun c => c.changes.insertions)
  let allDeletions := dr.comparisons.flatMap (fun c => c.changes.deletions)
  ⟨allInsertions, allDeletions, !(allInsertions.isEmpty && allDeletions.isEmpty)⟩

/-- `generate_feedback_from_diff_result`: an empty (falsy) `unified_diff`
short-circuits to the empty feedback list without invoking the generation
capability; otherwise the aggregated `ChangeSet` is turned into one prompt
and the capability is invoked once.  The prompt assembly, the agent
roster and the OpenAI call are the external generation capability,
abstracted as `callLLM`; the second component counts its invocations. -/
def generateFeedbackFromDiffResult
    (callLLM : ChangeSet → List (String × String)) (dr : DiffResult) :
    List (String × String) × Nat :=
  if ¬ pyTruthyStr dr.unified_diff then ([], 0)
  else (callLLM (aggregatedChanges dr), 1)

/-! ## `multi_format_flow.py`: `clean_json_response`

The regex search
`re.search(r"` ``` `(?:json)?[\r\n]+(.*?)[\r\n]+` ``` `", text, DOTALL | IGNORECASE)`
is embedded by its backtracking semantics: leftmost start position first;
at a position, the optional `json` is consumed if possible (falling back to
not consuming it), the leading `[\r\n]+` is greedy (longest run first),
the group `(.*?)` is lazy (shortest first), and the trailing `[\r\n]+`
before the closing fence only ever matches the full newline run in front
of a backtick. -/

/-- Length of the leading `[\r\n]*` run. -/
def leadingNewlineRun : List Char → Nat
  | c :: rest => if c = '\r' ∨ c = '\n' then leadingNewlineRun rest + 1 else 0
  | [] => 0

/-- Does the character list start with three backticks? -/
def isTickStart (cs : List Char) : Bool :=
  match cs with
  | '`' :: '`' :: '`' :: _ => true
  | _ => false

/-- Can `[\r\n]+` followed by the closing fence match here? -/
def fenceTailAt (cs : List Char) : Bool :=
  let t := leadingNewlineRun cs
  t ≠ 0 && isTickStart (cs.drop t)

/-- Lazy group: grow the group one character at a time until the closing
`[\r\n]+` ``` ` fits. -/
def findMiddle (acc : List Char) : List Char → Option String
  | [] => none
  | c :: rest =>
    if fenceTailAt (c :: rest) then some (String.mk acc.reverse)
    else findMiddle (c :: acc) rest

/-- Greedy leading `[\r\n]+`: try the longest prefix run first. -/
def tryLead (cs : List Char) : Nat → Option String
  | 0 => none
  | a + 1 =>
    match findMiddle [] (cs.drop (a + 1)) with
    | some s => some s
    | none => tryLead cs a

/-- Match the fence body right after the opening backticks (and optional
`json`): at least one newline, lazy group, closing fence. -/
def matchAfterTicks (cs : List Char) : Option String :=
  tryLead cs (leadingNewlineRun cs)

/-- Leftmost search for the fence pattern; at a match position the
case-insensitive `json` tag is preferred (greedy `(?:json)?`). -/
def fenceSearch : List Char → Option String
  | [] => none
  | c :: rest =>
    let here :=
      if isTickStart (c :: rest) then
        let after3 := (c :: rest).drop 3
        let withJson :=
          if (after3.take 4).map Char.toLower = ['j', 's', 'o', 'n'] then
            matchAfterTicks (after3.drop 4)
          else none
        match withJson with
        | some s => some s
        | none => matchAfterTicks after3
      else none
    match here with
    | some s => some s
    | none => fenceSearch rest

/-- `clean_json_response(raw_text)` (on the stringified input): return the
first fenced group if the pattern matches; otherwise, if the stripped text
both starts and ends with a fence, drop the first and last line; otherwise
return the text unchanged. -/
def cleanJsonResponse (text : String) : String :=
  match fenceSearch text.data with
  | some mid => mid
  | none =>
    let stripped := pyStrip text
    if pyStartsWith stripped "```" && pyEndsWith stripped "```" then
      let lines := pySplitChar stripped '\n'
      String.intercalate "\n" ((lines.drop 1).dropLast)
    else text

/-! ## `multi_format_flow.py`: report sections, merge, checkpoints

`_generate_section_contents` launches one task per section and drains them
in completion order (`asyncio.wait(..., FIRST_COMPLETED)`); each completed
task writes its (or, on failure, a placeholder) content under the section's
original title and triggers `_save_intermediate_result`.  The embedding
makes the completion order an explicit list of section indices and the
per-section outcome an explicit `Except` (an exception caught by the
`try`/`except` around `task.result()` is the `.error` case). -/

/-- The `toc` sub-dict of a section descriptor, as far as the flow reads
it (`section.get('toc', {}).get('title', 'unknown')`). -/
structure TocEntry where
  title : Option String
  deriving DecidableEq, Repr

/-- A section descriptor, as far as the flow reads it. -/
structure SectionDescriptor where
  toc : Option TocEntry
  deriving DecidableEq, Repr

/-- `section.get('toc', {}).get('title', 'unknown')`. -/
def sectionTitle (s : SectionDescriptor) : String :=
  match s.toc with
  | none => "unknown"
  | some t => t.title.getD "unknown"

/-- The title of the `idx`-th planned section. -/
def titleAt (sections : List SectionDescriptor) (idx : Nat) : String :=
  sectionTitle (sections.getD idx ⟨none⟩)

/-- The content stored for a completed section task: the task's result, or
the failure placeholder built from the exception text. -/
def sectionResultText (r : Except String String) : String :=
  match r with
  | .ok content => content
  | .error e => "섹션 생성 실패: " ++ e

/-- The merge computed by both `_merge_report_sections` and
`_save_intermediate_result`: the planned titles in order, those present in
the per-title map looked up and joined with the fixed separator. -/
def mergeReportText (sections : List SectionDescriptor)
    (contents : List (String × String)) : String :=
  String.intercalate "\n\n---\n\n"
    (((sections.map sectionTitle).filter (fun t => dictMem contents t)).map
      (fun t => dictGetD contents t ""))

/-- The section-contents map after a list of completions: each completed
index writes its content under its original title (`dictSet`, so a later
completion of the same title overwrites an earlier one). -/
def runMap (sections : List SectionDescriptor)
    (results : Nat → Except String String) (order : List Nat)
    (sc : List (String × String)) : List (String × String) :=
  order.foldl (fun m idx => dictSet m (titleAt sections idx) (sectionResultText (results idx))) sc

/-- `_save_intermediate_result`: re-merge in planned order, store under the
report key, and persist `{proc_form_id: report_contents}` only when
`todo_id`, `proc_form_id` and `report_contents` are all truthy.  The
returned option is the persisted payload (`none` = no write). -/
def saveIntermediateResult (todoId procFormId : Option String) (reportKey : String)
    (sections : List SectionDescriptor) (sc rc : List (String × String)) :
    List (String × String) × Option (List (String × String)) :=
  let merged := mergeReportText sections sc
  let rc' := dictSet rc reportKey merged
  let saved :=
    if pyTruthyOptStr todoId && pyTruthyOptStr procFormId && !rc'.isEmpty then
      some rc'
    else none
  (rc', saved)

/-- The completion-drain loop of `_generate_section_contents`: for each
completed index (in completion order) write the content (or failure
placeholder) under the original title, then checkpoint.  Returns the final
per-title map, the final `report_contents`, and the checkpoint written
after each completion. -/
def runSectionsLoop (todoId procFormId : Option String) (reportKey : String)
    (sections : List SectionDescriptor) (results : Nat → Except String String) :
    List Nat → List (String × String) → List (String × String) →
    List (String × String) × List (String × String) ×
      List (Option (List (String × String)))
  | [], sc, rc => (sc, rc, [])
  | idx :: rest, sc, rc =>
    let sc' := dictSet sc (titleAt sections idx) (sectionResultText (results idx))
    let (rc', saved) := saveIntermediateResult todoId procFormId reportKey sections sc' rc
    let (scF, rcF, saves) := runSectionsLoop todoId procFormId reportKey sections results rest sc' rc'
    (scF, rcF, saved :: saves)

/-- One report key of `generate_reports`: start from an empty per-title
map, drain the completions, then run the final `_merge_report_sections`
merge into `report_contents`. -/
def generateReportKey (todoId procFormId : Option String) (reportKey : String)
    (sections : List SectionDescriptor) (results : Nat → Except String String)
    (order : List Nat) (rc0 : List (String × String)) :
    List (String × String) × List (String × String) ×
      List (Option (List (String × String))) :=
  let (sc, rc1, saves) :=
    runSectionsLoop todoId procFormId reportKey sections results order [] rc0
  let rc2 := dictSet rc1 reportKey (mergeReportText sections sc)
  (sc, rc2, saves)

/-! ## `multi_format_flow.py`: slide and text phases -/

/-- A slide/text form descriptor, as far as the flow reads it
(`form['key']`, `form.get('dependencies', [])`). -/
structure FormDescriptor where
  key : String
  dependencies : List String
  deriving DecidableEq, Repr

/-- An entry of the `form_types` catalog, as far as the text phase reads
it (`ft.get('key')`). -/
structure FormType where
  key : String
  deriving DecidableEq, Repr

/-- `_create_slides(content, report_key)`: for every slide-phase form, skip
it only when `report_key` is truthy and not among the form's dependencies
(`if report_key and report_key not in slide_form.get('dependencies', []):
continue`); otherwise invoke the slide crew and store its output under the
form's key.  The second component is the invocation trace (form invoked,
content passed). -/
def createSlides (forms : List FormDescriptor) (slideGen : String → String → String)
    (content : String) (reportKey : Option String)
    (st : List (String × String) × List (FormDescriptor × String)) :
    List (String × String) × List (FormDescriptor × String) :=
  forms.foldl (fun (st : List (String × String) × List (FormDescriptor × String)) form =>
    let skip :=
      match reportKey with
      | some rk => pyTruthyStr rk && !(form.dependencies.contains rk)
      | none => false
    if skip then st
    else
      (dictSet st.1 form.key (slideGen form.key content), st.2 ++ [(form, content)])) st

/-- `generate_slides`: with a non-empty `report_contents`, run
`_create_slides(content, report_key)` per stored report; with an empty one,
run `_create_slides(previous_outputs)` once, with no report key. -/
def generateSlides (forms : List FormDescriptor) (slideGen : String → String → String)
    (reportContents : List (String × String)) (previousOutputs : String) :
    List (String × String) × List (FormDescriptor × String) :=
  if !reportContents.isEmpty then
    reportContents.foldl
      (fun st (kv : String × String) => createSlides forms slideGen kv.2 (some kv.1) st)
      ([], [])
  else
    createSlides forms slideGen previousOutputs none ([], [])

/-- The content argument `generate_texts` passes to the form crew: the
whole `report_contents` dict when non-empty, else `previous_outputs or ""`
(already a string). -/
inductive TextContent where
  | fromReports : List (String × String) → TextContent
  | fromPrevious : String → TextContent
  deriving DecidableEq, Repr

/-- `generate_texts`: collect, over the text-phase forms with a truthy key,
every `form_types` entry with a matching key; when the collection is
non-empty make the single `_generate_text_content` call (modelled as the
returned pair: content argument and the collected form types).  `none`
means no call is made.  The forms' `dependencies` are not read. -/
def generateTexts (textForms : List FormDescriptor) (formTypes : List FormType)
    (reportContents : List (String × String)) (previousOutputs : String) :
    Option (TextContent × List FormType) :=
  let content :=
    if !reportContents.isEmpty then TextContent.fromReports reportContents
    else TextContent.fromPrevious previousOutputs
  let allTargetFormTypes :=
    textForms.foldl (fun acc tf =>
      if !pyTruthyStr tf.key then acc
      else acc ++ formTypes.filter (fun ft => ft.key == tf.key)) []
  if !allTargetFormTypes.isEmpty then some (content, allTargetFormTypes)
  else none

/-! ## `multi_format_flow.py`: JSON parse sites

`json.loads` is the external JSON parser, abstracted as a
`String → Option PyVal` argument (`none` = `JSONDecodeError`). -/

/-- `Phase.parse_obj` data, as far as the plan parse keeps it. -/
structure PhaseM where
  forms : List PyVal

/-- `ExecutionPlan.parse_obj` data. -/
structure ExecutionPlanM where
  report_phase : PhaseM
  slide_phase : PhaseM
  text_phase : PhaseM

/-- One phase out of the plan dict: `{forms: [...]}`; a missing or
non-conforming phase defaults to empty forms (the pydantic
`default_factory`). -/
def parsePhase (v : PyVal) : PhaseM :=
  match v with
  | .dict d =>
    match dictGet d "forms" with
    | some (.list xs) => ⟨xs⟩
    | _ => ⟨[]⟩
  | _ => ⟨[]⟩

/-- `create_execution_plan`'s parse step: clean the raw text, parse it; a
parse failure (or a non-dict result, whose `.get` raises) is caught by the
surrounding handler, which re-raises — fatal to the work item.  On success
the plan is read from `parsed['execution_plan']` (default `{}`). -/
def createExecutionPlanParse (loads : String → Option PyVal) (raw : String) :
    Except String ExecutionPlanM :=
  match loads (cleanJsonResponse raw) with
  | some (.dict d) =>
    let planData := (dictGet d "execution_plan").getD (.dict [])
    match planData with
    | .dict pd =>
      .ok ⟨parsePhase ((dictGet pd "report_phase").getD (.dict [])),
           parsePhase ((dictGet pd "slide_phase").getD (.dict [])),
           parsePhase ((dictGet pd "text_phase").getD (.dict []))⟩
    | _ => .ok ⟨⟨[]⟩, ⟨[]⟩, ⟨[]⟩⟩
  | some _ => .error "실행계획생성 실패"
  | none => .error "실행계획생성 실패"

/-- `_create_report_sections`' parse step: clean, parse, and apply the
backward-compatibility extraction `parsed.get('sections', parsed)`.  A
parse failure propagates to `generate_reports`' handler, which re-raises —
fatal to the work item. -/
def createReportSectionsParse (loads : String → Option PyVal) (raw : String) :
    Except String PyVal :=
  match loads (cleanJsonResponse raw) with
  | some v =>
    .ok (match v with
         | .dict d => (dictGet d "sections").getD v
         | _ => v)
  | none => .error "리포트생성 실패"

/-- `_parse_text_results`: clean and parse the raw text; a parsed dict is
merged into `text_contents`; a parsed non-dict stores
`{"text": cleaned}` under the default key; a `JSONDecodeError` stores
`{"text": str(raw)}` under the default key — never an error. -/
def parseTextResults (loads : String → Option PyVal) (raw : String)
    (tc : List (String × PyVal)) : List (String × PyVal) :=
  match loads (cleanJsonResponse raw) with
  | some (.dict d) => dictUpdate tc d
  | some _ =>
    dictSet tc "text_result" (.dict [("text", .str (cleanJsonResponse raw))])
  | none =>
    dictSet tc "text_result" (.dict [("text", .str raw)])

/-! ## Proof infrastructure: `find_longest_match` on identical inputs

For the no-op idempotence property we show that the matcher returns the
full diagonal match on identical inputs.  `chainLen l i j` is the value
the inner loop's `j2len` dict holds at key `j` after row `i` (the length
of the diagonal-chain ending at `(i, j)`); the key fact is that chains are
dominated by the diagonal chain at `min i j`, so the running best match is
always diagonal, and the extension loops then stretch any diagonal match
to the whole range. -/

/-- The position list the inner loop walks at row `i` on identical inputs:
`b2j[a[i]]` with `a = b = l`. -/
def jsRow (l : List String) (i : Nat) : List Nat := b2jFun l (l.getD i "")

/-- The `j2len` chain value at `(i, j)` for identical inputs. -/
def chainLen (l : List String) : Nat → Nat → Nat
  | 0, j => if j ∈ jsRow l 0 then 1 else 0
  | i + 1, j =>
    if j ∈ jsRow l (i + 1) then
      match j with
      | 0 => 1
      | j' + 1 => chainLen l i j' + 1
    else 0

/-- The `j2len` function in force while row `i` is processed (all zero for
the first row). -/
def prevChain (l : List String) : Nat → Nat → Nat
  | 0 => fun _ => 0
  | i + 1 => chainLen l i

theorem mem_b2jRaw {b : List String} {v : String} {j : Nat} :
    j ∈ b2jRaw b v ↔ b.get? j = some v := by
  unfold b2jRaw
  simp only [List.mem_filter, List.mem_range, decide_eq_true_eq]
  constructor
  · exact fun h => h.2
  · intro h
    exact ⟨(List.get?_eq_some.mp h).1, h⟩

/-- A successful indexed read determines the defaulted read. -/
theorem getD_of_get? {l : List String} {i : Nat} {v : String}
    (h : l.get? i = some v) : l.getD i "" = v := by
  rw [List.getD_eq_getElem?_getD, ← List.get?_eq_getElem?, h]
  rfl

theorem mem_b2jFun {b : List String} {v : String} {j : Nat}
    (h : j ∈ b2jFun b v) : b.get? j = some v := by
  unfold b2jFun at h
  split at h
  · simp at h
  · exact mem_b2jRaw.mp h

theorem lt_length_of_mem_b2jFun {b : List String} {v : String} {j : Nat}
    (h : j ∈ b2jFun b v) : j < b.length :=
  (List.get?_eq_some.mp (mem_b2jFun h)).1

theorem mem_b2jFun_of_get {b : List String} {v : String} {j m : Nat}
    (h : j ∈ b2jFun b v) (hm : b.get? m = some v) : m ∈ b2jFun b v := by
  unfold b2jFun at h ⊢
  by_cases hc : 200 ≤ b.length ∧ b.length / 100 + 1 < (b2jRaw b v).length
  · rw [if_pos hc] at h
    simp at h
  · rw [if_neg hc] at h ⊢
    exact mem_b2jRaw.mpr hm

theorem jsRow_pairwise (l : List String) (i : Nat) :
    (jsRow l i).Pairwise (· < ·) := by
  unfold jsRow b2jFun
  split
  · exact List.Pairwise.nil
  · exact (List.pairwise_lt_range l.length).filter _

theorem mem_jsRow_get {l : List String} {i j : Nat} (h : j ∈ jsRow l i) :
    l.get? j = some (l.getD i "") := mem_b2jFun h

theorem lt_length_of_mem_jsRow {l : List String} {i j : Nat}
    (h : j ∈ jsRow l i) : j < l.length := lt_length_of_mem_b2jFun h

/-- On identical inputs, the row index itself appears in its own position
list whenever that list is non-empty. -/
theorem self_mem_jsRow {l : List String} {i j : Nat} (h : j ∈ jsRow l i)
    (hi : i < l.length) : i ∈ jsRow l i := by
  apply mem_b2jFun_of_get h
  rw [List.get?_eq_get hi]
  exact congrArg some (getD_of_get? (List.get?_eq_get hi)).symm

theorem chainLen_zero (l : List String) (j : Nat) :
    chainLen l 0 j = if j ∈ jsRow l 0 then 1 else 0 := rfl

theorem chainLen_succ_zero (l : List String) (i : Nat) :
    chainLen l (i + 1) 0 = if 0 ∈ jsRow l (i + 1) then 1 else 0 := rfl

theorem chainLen_succ_succ (l : List String) (i j : Nat) :
    chainLen l (i + 1) (j + 1) =
      if j + 1 ∈ jsRow l (i + 1) then chainLen l i j + 1 else 0 := rfl

theorem chainLen_of_not_mem {l : List String} {i j : Nat}
    (h : ¬ j ∈ jsRow l i) : chainLen l i j = 0 := by
  match i, j with
  | 0, j => rw [chainLen_zero, if_neg h]
  | i + 1, 0 => rw [chainLen_succ_zero, if_neg h]
  | i + 1, j + 1 => rw [chainLen_succ_succ, if_neg h]

/-- A non-zero chain value is attached to a position of the row's list. -/
theorem mem_jsRow_of_chainLen {l : List String} {i j : Nat}
    (h : chainLen l i j ≠ 0) : j ∈ jsRow l i := by
  by_contra hmem
  exact h (chainLen_of_not_mem hmem)

/-- Chains cannot be longer than the row index allows. -/
theorem chainLen_le_row (l : List String) : ∀ i j, chainLen l i j ≤ i + 1 := by
  intro i
  induction i with
  | zero =>
    intro j
    rw [chainLen_zero]
    split <;> simp
  | succ i ih =>
    intro j
    match j with
    | 0 =>
      rw [chainLen_succ_zero]
      split <;> simp
    | j + 1 =>
      rw [chainLen_succ_succ]
      split
      · exact Nat.succ_le_succ (ih j)
      · simp

/-- Diagonal dominance: on identical inputs every chain is bounded by the
diagonal chain at the smaller coordinate. -/
theorem chainLen_le_diag (l : List String) :
    ∀ i, i < l.length → ∀ j, chainLen l i j ≤ chainLen l (min i j) (min i j) := by
  intro i
  induction i with
  | zero =>
    intro _ j
    by_cases hmem : j ∈ jsRow l 0
    · have hj0 : (0 : Nat) ∈ jsRow l 0 :=
        self_mem_jsRow hmem (Nat.zero_lt_of_lt (lt_length_of_mem_jsRow hmem))
      simp only [Nat.zero_min, chainLen_zero, if_pos hmem, if_pos hj0]
      exact Nat.le_refl 1
    · rw [chainLen_of_not_mem hmem]
      exact Nat.zero_le _
  | succ i ih =>
    intro hi j
    by_cases hmem : j ∈ jsRow l (i + 1)
    · match j with
      | 0 =>
        -- min (i+1) 0 = 0; both sides are 1
        have hv : l.get? 0 = some (l.getD (i + 1) "") := mem_jsRow_get hmem
        have hrow0 : jsRow l 0 = b2jFun l (l.getD (i + 1) "") := by
          unfold jsRow
          rw [getD_of_get? hv]
        have h00 : (0 : Nat) ∈ jsRow l 0 := by
          rw [hrow0]
          exact mem_b2jFun_of_get hmem hv
        rw [chainLen_succ_zero, if_pos hmem]
        simp only [Nat.min_zero, chainLen_zero, if_pos h00]
        exact Nat.le_refl 1
      | j' + 1 =>
        have hv : l.get? (j' + 1) = some (l.getD (i + 1) "") := mem_jsRow_get hmem
        have hjn : j' + 1 < l.length := (List.get?_eq_some.mp hv).1
        have hmin : min (i + 1) (j' + 1) = min i j' + 1 := Nat.succ_min_succ i j'
        -- the diagonal position min i j' + 1 lies in its own row's list
        have hgm : l.get? (min i j' + 1) = some (l.getD (i + 1) "") := by
          rcases Nat.le_total i j' with hle | hle
          · rw [Nat.min_eq_left hle, List.get?_eq_get hi]
            exact congrArg some (getD_of_get? (List.get?_eq_get hi)).symm
          · rw [Nat.min_eq_right hle]
            exact hv
        have hrowm : jsRow l (min i j' + 1) = b2jFun l (l.getD (i + 1) "") := by
          unfold jsRow
          rw [getD_of_get? hgm]
        have hmm : min i j' + 1 ∈ jsRow l (min i j' + 1) := by
          rw [hrowm]
          exact mem_b2jFun_of_get hmem hgm
        rw [chainLen_succ_succ, if_pos hmem, hmin, chainLen_succ_succ, if_pos hmm]
        exact Nat.succ_le_succ (ih (Nat.lt_of_succ_lt hi) j')
    · rw [chainLen_of_not_mem hmem]
      exact Nat.zero_le _

/-- The `k` computed by the inner loop equals the chain value. -/
theorem innerK_eq_chain (l : List String) (i j : Nat) (hmem : j ∈ jsRow l i) :
    (if j = 0 then 0 else prevChain l i (j - 1)) + 1 = chainLen l i j := by
  match i, j with
  | 0, 0 => simp [chainLen_zero, hmem]
  | 0, j + 1 => simp [prevChain, chainLen_zero, hmem]
  | i + 1, 0 => simp [chainLen_succ_zero, hmem]
  | i + 1, j + 1 => simp [prevChain, chainLen_succ_succ, hmem]

/-- Row invariant of the inner loop on identical inputs: walking (a suffix
of) the row's position list keeps the best match diagonal and within
bounds, keeps its size dominating the diagonal chains of all earlier rows
(and of this row once its diagonal position has been passed), and fills
`newj2len` with the row's chain values. -/
theorem procJs_self (l : List String) (i : Nat) (hi : i < l.length)
    (j2len : Nat → Nat) (hj2 : ∀ j, j2len j = prevChain l i j) :
    ∀ (js pre : List Nat) (bi bs : Nat) (nw : Nat → Nat),
      pre ++ js = jsRow l i →
      bi + bs ≤ i + 1 →
      (∀ r, r < i → chainLen l r r ≤ bs) →
      (i ∈ pre → chainLen l i i ≤ bs) →
      (∀ j', nw j' = if j' ∈ pre then chainLen l i j' else 0) →
      ∃ bi' bs' nw',
        procJs 0 l.length j2len i js ((bi, bi, bs), nw) = ((bi', bi', bs'), nw') ∧
        bi' + bs' ≤ i + 1 ∧
        (∀ r, r < i → chainLen l r r ≤ bs') ∧
        (i ∈ jsRow l i → chainLen l i i ≤ bs') ∧
        (∀ j', nw' j' = if j' ∈ jsRow l i then chainLen l i j' else 0) := by
  intro js
  induction js with
  | nil =>
    intro pre bi bs nw hpre hB hC hD hnw
    refine ⟨bi, bs, nw, rfl, hB, hC, ?_, ?_⟩
    · rw [← hpre, List.append_nil]
      exact hD
    · rw [← hpre, List.append_nil]
      exact hnw
  | cons j rest ih =>
    intro pre bi bs nw hpre hB hC hD hnw
    have hjmem : j ∈ jsRow l i := by
      rw [← hpre]
      exact List.mem_append_right pre (List.mem_cons_self j rest)
    have hjn : j < l.length := lt_length_of_mem_jsRow hjmem
    have hk : (if j = 0 then 0 else j2len (j - 1)) + 1 = chainLen l i j := by
      rw [show (if j = 0 then 0 else j2len (j - 1))
            = (if j = 0 then 0 else prevChain l i (j - 1)) by
          split <;> simp [hj2]]
      exact innerK_eq_chain l i j hjmem
    have hstep : procJs 0 l.length j2len i (j :: rest) ((bi, bi, bs), nw) =
        procJs 0 l.length j2len i rest
          ((if bs < (if j = 0 then 0 else j2len (j - 1)) + 1 then
              (i + 1 - ((if j = 0 then 0 else j2len (j - 1)) + 1),
               j + 1 - ((if j = 0 then 0 else j2len (j - 1)) + 1),
               (if j = 0 then 0 else j2len (j - 1)) + 1)
            else (bi, bi, bs)),
           fun j' => if j' = j then (if j = 0 then 0 else j2len (j - 1)) + 1
             else nw j') := by
      rw [procJs]
      rw [if_neg (Nat.not_lt_zero j), if_neg (Nat.not_le.mpr hjn)]
    have hnw' : ∀ j', (fun j' => if j' = j then (if j = 0 then 0 else j2len (j - 1)) + 1
        else nw j') j' = if j' ∈ pre ++ [j] then chainLen l i j' else 0 := by
      intro j'
      by_cases hj' : j' = j
      · subst hj'
        simp [hk]
      · simp only [hj', if_false]
        rw [hnw j']
        by_cases hp : j' ∈ pre <;> simp [hp, List.mem_append, hj']
    have hpre' : (pre ++ [j]) ++ rest = jsRow l i := by
      rw [List.append_assoc]
      exact hpre
    by_cases hup : bs < (if j = 0 then 0 else j2len (j - 1)) + 1
    · -- the best match is replaced: this can only happen on the diagonal
      have hji : j = i := by
        rcases Nat.lt_trichotomy j i with hlt | heq | hgt
        · exfalso
          have h1 : chainLen l i j ≤ chainLen l j j := by
            have := chainLen_le_diag l i hi j
            rwa [Nat.min_eq_right (Nat.le_of_lt hlt)] at this
          have h2 : chainLen l j j ≤ bs := hC j hlt
          rw [hk] at hup
          exact Nat.not_le.mpr hup (Nat.le_trans h1 h2)
        · exact heq
        · exfalso
          have h1 : chainLen l i j ≤ chainLen l i i := by
            have := chainLen_le_diag l i hi j
            rwa [Nat.min_eq_left (Nat.le_of_lt hgt)] at this
          have hii : i ∈ jsRow l i := self_mem_jsRow hjmem hi
          have hipre : i ∈ pre := by
            have : i ∈ pre ++ j :: rest := by rw [hpre]; exact hii
            rcases List.mem_append.mp this with h | h
            · exact h
            · rcases List.mem_cons.mp h with h | h
              · exact absurd h.symm (Nat.ne_of_lt hgt).symm
              · exfalso
                have hpw : (pre ++ j :: rest).Pairwise (· < ·) := by
                  rw [hpre]
                  exact jsRow_pairwise l i
                have hjlt : j < i :=
                  (List.pairwise_cons.mp (List.pairwise_append.mp hpw).2.1).1 i h
                exact Nat.lt_asymm hgt hjlt
          have h2 : chainLen l i i ≤ bs := hD hipre
          rw [hk] at hup
          exact Nat.not_le.mpr hup (Nat.le_trans h1 h2)
      subst hji
      rw [hstep, if_pos hup]
      have hkle : (if j = 0 then 0 else j2len (j - 1)) + 1 ≤ j + 1 := by
        rw [hk]
        exact chainLen_le_row l j j
      obtain ⟨bi', bs', nw', heq, hB', hC', hD', hnw''⟩ :=
        ih (pre ++ [j]) (j + 1 - ((if j = 0 then 0 else j2len (j - 1)) + 1))
          ((if j = 0 then 0 else j2len (j - 1)) + 1) _ hpre'
          (by rw [Nat.sub_add_cancel hkle])
          (fun r hr => Nat.le_trans (Nat.le_of_lt (Nat.lt_of_le_of_lt (hC r hr) hup))
            (Nat.le_refl _))
          (fun _ => by rw [hk])
          hnw'
      exact ⟨bi', bs', nw', heq, hB', hC', hD', hnw''⟩
    · -- no update
      rw [hstep, if_neg hup]
      obtain ⟨bi', bs', nw', heq, hB', hC', hD', hnw''⟩ :=
        ih (pre ++ [j]) bi bs _ hpre' hB hC
          (fun hmem' => by
            rcases List.mem_append.mp hmem' with h | h
            · exact hD h
            · have hij : i = j := by simpa using h
              subst hij
              rw [← hk]
              exact Nat.not_lt.mp hup)
          hnw'
      exact ⟨bi', bs', nw', heq, hB', hC', hD', hnw''⟩

/-- Row-loop invariant on identical inputs: the best match stays diagonal
and within the scanned range. -/
theorem procRows_self (l : List String) :
    ∀ (cnt i : Nat), i + cnt = l.length →
    ∀ (bi bs : Nat) (j2len : Nat → Nat),
      bi + bs ≤ i →
      (∀ r, r < i → chainLen l r r ≤ bs) →
      (∀ j, j2len j = prevChain l i j) →
      ∃ bi' bs' j2len',
        procRows (b2jFun l) l 0 l.length i cnt ((bi, bi, bs), j2len)
          = ((bi', bi', bs'), j2len') ∧
        bi' + bs' ≤ l.length := by
  intro cnt
  induction cnt with
  | zero =>
    intro i hcnt bi bs j2len hB _ _
    exact ⟨bi, bs, j2len, rfl, by omega⟩
  | succ cnt ih =>
    intro i hcnt bi bs j2len hB hC hj2
    have hi : i < l.length := by omega
    obtain ⟨bi', bs', nw', heq, hB', hC', hD', hnw'⟩ :=
      procJs_self l i hi j2len hj2 (jsRow l i) [] bi bs (fun _ => 0) rfl
        (Nat.le_succ_of_le hB) hC (fun h => absurd h (List.not_mem_nil i))
        (fun j' => by simp)
    have hrow : procRows (b2jFun l) l 0 l.length i (cnt + 1) ((bi, bi, bs), j2len)
        = procRows (b2jFun l) l 0 l.length (i + 1) cnt ((bi', bi', bs'), nw') := by
      rw [procRows]
      have hjs : b2jFun l (l.getD i "") = jsRow l i := rfl
      rw [hjs, heq]
    rw [hrow]
    apply ih (i + 1) (by omega) bi' bs' nw' hB'
    · intro r hr
      rcases Nat.lt_or_ge r i with h | h
      · exact hC' r h
      · have hri : r = i := by omega
        subst hri
        by_cases hmem : r ∈ jsRow l r
        · exact hD' hmem
        · rw [chainLen_of_not_mem hmem]
          exact Nat.zero_le _
    · intro j
      rw [hnw' j]
      show _ = chainLen l i j
      by_cases hmem : j ∈ jsRow l i
      · rw [if_pos hmem]
      · rw [if_neg hmem, chainLen_of_not_mem hmem]

/-- The backward non-junk extension stretches a diagonal match to the
start of the range. -/
theorem extBack_self_diag (l : List String) :
    ∀ (d s : Nat), extBack l l 0 0 (fun _ => true) d d s = (0, 0, s + d) := by
  intro d
  induction d with
  | zero => intro s; rfl
  | succ d ihd =>
    intro s
    rw [extBack]
    rw [if_pos ⟨Nat.succ_pos d, Nat.succ_pos d, rfl, by simp⟩]
    rw [Nat.add_sub_cancel, ihd (s + 1)]
    have harith : s + 1 + d = s + (d + 1) := by omega
    rw [harith]

/-- The forward non-junk extension stretches a match anchored at the start
to the end of the range. -/
theorem extFwd_self (l : List String) :
    ∀ (fuel s : Nat), s ≤ l.length →
      extFwd l l l.length l.length (fun _ => true) 0 0 fuel s
        = min l.length (s + fuel) := by
  intro fuel
  induction fuel with
  | zero =>
    intro s hs
    rw [extFwd, Nat.add_zero, Nat.min_eq_right hs]
  | succ fuel ih =>
    intro s hs
    rw [extFwd]
    rcases Nat.lt_or_ge s l.length with h | h
    · rw [if_pos ⟨by omega, by omega, rfl, rfl⟩, ih (s + 1) h]
      congr 1
      omega
    · have hsn : s = l.length := Nat.le_antisymm hs h
      rw [if_neg (by omega)]
      omega

/-- A junk extension loop from a full-range match does not move (there is
no junk with `isjunk=None`; and the range is exhausted anyway). -/
theorem extFwd_full (l : List String) (pred : String → Bool) :
    ∀ fuel, extFwd l l l.length l.length pred 0 0 fuel l.length = l.length := by
  intro fuel
  match fuel with
  | 0 => rfl
  | fuel + 1 =>
    rw [extFwd]
    rw [if_neg (by omega)]

/-- `find_longest_match` returns the full diagonal on identical inputs. -/
theorem findLongestMatch_self (l : List String) :
    findLongestMatch l l (b2jFun l) 0 l.length 0 l.length
      = (0, 0, l.length) := by
  obtain ⟨bi, bs, j2len', heq, hB⟩ :=
    procRows_self l l.length 0 (by omega) 0 0 (fun _ => 0) (Nat.le_refl 0)
      (fun r hr => absurd hr (Nat.not_lt_zero r)) (fun j => rfl)
  have h2 : extFwd l l l.length l.length (fun _ => true) 0 0 l.length (bs + bi)
      = l.length := by
    rw [extFwd_self l l.length (bs + bi) (by omega)]
    omega
  have h3 : extBack l l 0 0 (fun _ => false) 0 0 l.length
      = (0, 0, l.length) := rfl
  unfold findLongestMatch
  simp only [Nat.sub_zero, heq, extBack_self_diag, h2, h3,
    extFwd_full l (fun _ => false) l.length]

/-- The queue loop on identical inputs: the first popped range is fully
matched, no subrange is pushed, and the loop stops. -/
theorem mbLoop_self (l : List String) (fuel : Nat) :
    mbLoop l l (b2jFun l) (fuel + 1) [(0, l.length, 0, l.length)] []
      = if l.length = 0 then [] else [(0, 0, l.length)] := by
  rw [mbLoop, findLongestMatch_self]
  by_cases hn : l.length = 0
  · simp [hn, mbLoop]
  · simp [hn, mbLoop]

theorem getMatchingBlocks_self (l : List String) :
    getMatchingBlocks l l =
      (if l.length = 0 then [] else [(0, 0, l.length)])
        ++ [(l.length, l.length, 0)] := by
  show mergeAdjacent 0 0 0 (sortTriples (mbLoop l l (b2jFun l)
      (2 * (l.length + l.length) + 2) [(0, l.length, 0, l.length)] []))
        ++ [(l.length, l.length, 0)] = _
  rw [show 2 * (l.length + l.length) + 2 = (2 * (l.length + l.length) + 1) + 1
      from rfl, mbLoop_self]
  by_cases hn : l.length = 0
  · rw [if_pos hn]
    rfl
  · rw [if_neg hn]
    show mergeAdjacent 0 0 0 [(0, 0, l.length)] ++ _ = _
    rw [mergeAdjacent, if_pos ⟨rfl, rfl⟩, mergeAdjacent,
      if_pos (by simpa using hn)]
    simp

theorem getOpcodes_self (l : List String) :
    getOpcodes l l =
      if l.length = 0 then [] else [(DTag.equal, 0, l.length, 0, l.length)] := by
  unfold getOpcodes
  rw [getMatchingBlocks_self]
  by_cases hn : l.length = 0
  · rw [if_pos hn, if_pos hn, hn]
    rfl
  · rw [if_neg hn, if_neg hn]
    show opcodesLoop 0 0 [(0, 0, l.length), (l.length, l.length, 0)] = _
    rw [opcodesLoop]
    rw [if_neg (by omega), if_neg (by omega), if_neg (by omega), if_pos hn]
    rw [opcodesLoop]
    rw [if_neg (by omega), if_neg (by omega), if_neg (by omega),
      if_neg (by simp), opcodesLoop]
    simp

theorem groupedOpcodes_self (l : List String) : groupedOpcodes l l 0 = [] := by
  unfold groupedOpcodes
  rw [getOpcodes_self]
  by_cases hn : l.length = 0
  · rw [if_pos hn]
    rfl
  · rw [if_neg hn]
    show groupLoop 0 [] [] _ = []
    have hmax : max 0 (l.length - 0) = l.length := by omega
    have hmin : min l.length (l.length + 0) = l.length := by omega
    simp only [hmax, hmin, Nat.sub_zero, List.reverse_cons, List.reverse_nil,
      List.nil_append]
    simp [groupLoop]

theorem unifiedDiffLines_self (l : List String) : unifiedDiffLines l l 0 = [] := by
  unfold unifiedDiffLines
  rw [groupedOpcodes_self]
  simp

/-- C5: for every text `A` (including the empty string),
`extract_changes(A, A)` returns
`{insertions: [], deletions: [], has_changes: false}`.  The both-empty
case takes the short-circuit branch of the definition without running the
diff; for every other `A` the embedded `difflib.unified_diff` emits no
lines on identical inputs, so both lists stay empty; and the output is the
value of a function of `A` alone, hence deterministic. -/
theorem extract_changes_self_empty (A : String) :
    extract_changes A A = ⟨[], [], false⟩ := by
  unfold extract_changes
  by_cases hA : pyTruthyStr A
  · rw [if_neg (by simp [hA])]
    simp only [unifiedDiffLines_self, extractLoop, List.isEmpty_nil,
      Bool.and_self, Bool.not_true]
  · rw [if_pos ⟨by simp [hA], by simp [hA]⟩]

/-- A line cannot start with both `+` and `-`. -/
theorem pyStartsWith_plus_minus (ln : String) :
    pyStartsWith ln "+" = true → pyStartsWith ln "-" = false := by
  unfold pyStartsWith
  rw [show ("+" : String).data = ['+'] from rfl,
    show ("-" : String).data = ['-'] from rfl]
  cases ln.data with
  | nil =>
    intro h
    exact absurd h (by decide)
  | cons c cs =>
    rw [List.isPrefixOf, List.isPrefixOf]
    intro h1
    have hc : '+' = c := by simpa using h1
    subst hc
    rfl

/-- The tagging loop is the pair of filtered, marker-stripped projections
of the diff lines. -/
theorem extractLoop_eq (lines : List String) :
    extractLoop lines =
      ((lines.filter (fun ln => pyStartsWith ln "+" && !pyStartsWith ln "+++")).map
        (fun ln => pyDrop ln 1),
       (lines.filter (fun ln => pyStartsWith ln "-" && !pyStartsWith ln "---")).map
        (fun ln => pyDrop ln 1)) := by
  induction lines with
  | nil => rfl
  | cons line rest ih =>
    rw [extractLoop, ih]
    by_cases h1 : (pyStartsWith line "+" && !pyStartsWith line "+++") = true
    · have hminus : pyStartsWith line "-" = false :=
        pyStartsWith_plus_minus line (Bool.and_elim_left h1)
      simp [h1, hminus]
    · by_cases h2 : (pyStartsWith line "-" && !pyStartsWith line "---") = true
      · simp [h1, h2]
      · simp [h1, h2]

/-- An empty (falsy) Python string is the empty string. -/
theorem eq_empty_of_not_truthy {s : String} (h : ¬ pyTruthyStr s = true) :
    s = "" := by
  unfold pyTruthyStr at h
  simpa using h

/-- C4: on the draft `{"reports": {"sec1": "A\nB"}}` and the final output
`{"container": {"sec1": "A\nC"}}`, `compare_report_changes` returns exactly
one comparison, for key `sec1`, with `deletions = ["B"]` and
`insertions = ["C"]`; and in general `extract_changes` appends every diff
line tagged `+` (but not a `+++` header) to `insertions` with the marker
stripped, every line tagged `-` (but not a `---` header) to `deletions`
likewise, and reports `has_changes` exactly when either list is
non-empty. -/
theorem compare_scenario_line_tagging :
    ((compareReportChanges (.dict [("reports", .dict [("sec1", .str "A\nB")])])
        (.dict [("container", .dict [("sec1", .str "A\nC")])])).comparisons.map
      (fun c => (c.key, c.changes.deletions, c.changes.insertions))
        = [("sec1", ["B"], ["C"])]) ∧
    ∀ original modified : String,
      (extract_changes original modified).insertions
          = ((unifiedDiffLines (pySplitlines original) (pySplitlines modified) 0).filter
              (fun ln => pyStartsWith ln "+" && !pyStartsWith ln "+++")).map
              (fun ln => pyDrop ln 1) ∧
      (extract_changes original modified).deletions
          = ((unifiedDiffLines (pySplitlines original) (pySplitlines modified) 0).filter
              (fun ln => pyStartsWith ln "-" && !pyStartsWith ln "---")).map
              (fun ln => pyDrop ln 1) ∧
      ((extract_changes original modified).has_changes = true ↔
        ((extract_changes original modified).insertions ≠ [] ∨
          (extract_changes original modified).deletions ≠ [])) := by
  constructor
  · decide
  · intro original modified
    unfold extract_changes
    by_cases hb : (¬ pyTruthyStr original = true) ∧ (¬ pyTruthyStr modified = true)
    · rw [if_pos hb]
      rw [eq_empty_of_not_truthy hb.1, eq_empty_of_not_truthy hb.2]
      refine ⟨by decide, by decide, ?_⟩
      simp
    · rw [if_neg hb]
      refine ⟨?_, ?_, ?_⟩
      · simp only [extractLoop_eq]
      · simp only [extractLoop_eq]
      · simp only [extractLoop_eq]
        simp [List.isEmpty_iff]

/-- C9: the diff-header filter silently drops genuinely changed lines.
Deleting the line `--x` (rendered by the line diff as `---x`) or inserting
the line `++x` (rendered as `+++x`) produces a `ChangeSet` with empty
`insertions`/`deletions` and `has_changes = false`, although the inputs
split into different line lists and the underlying diff does tag the
lines. -/
theorem diff_header_filter_drops_lines :
    extract_changes "a\n--x" "a" = ⟨[], [], false⟩ ∧
    pySplitlines "a\n--x" ≠ pySplitlines "a" ∧
    "---x" ∈ unifiedDiffLines (pySplitlines "a\n--x") (pySplitlines "a") 0 ∧
    extract_changes "a" "a\n++x" = ⟨[], [], false⟩ ∧
    "+++x" ∈ unifiedDiffLines (pySplitlines "a") (pySplitlines "a\n++x") 0 := by
  refine ⟨by decide, by decide, by decide, by decide, by decide⟩

/-! ## Dict lemmas -/

theorem dictGet_dictSet {α : Type} (d : List (String × α)) (k k' : String) (v : α) :
    dictGet (dictSet d k v) k' = if k = k' then some v else dictGet d k' := by
  induction d with
  | nil =>
    by_cases h : k = k' <;> simp [dictSet, dictGet, h]
  | cons kv rest ih =>
    obtain ⟨k0, v0⟩ := kv
    by_cases h0 : k0 = k
    · subst h0
      by_cases h' : k0 = k' <;> simp [dictSet, dictGet, h']
    · by_cases h' : k0 = k'
      · subst h'
        have hkk : ¬ k = k0 := fun h => h0 h.symm
        simp [dictSet, dictGet, h0, hkk]
      · simp [dictSet, dictGet, h0, h', ih]

theorem dictSet_ne_nil {α : Type} (d : List (String × α)) (k : String) (v : α) :
    dictSet d k v ≠ [] := by
  cases d with
  | nil => simp [dictSet]
  | cons kv rest =>
    obtain ⟨k0, v0⟩ := kv
    rw [dictSet]
    split <;> simp

theorem dictSet_dictSet_same {α : Type} (d : List (String × α)) (k : String) (v w : α) :
    dictSet (dictSet d k v) k w = dictSet d k w := by
  induction d with
  | nil => simp [dictSet]
  | cons kv rest ih =>
    obtain ⟨k0, v0⟩ := kv
    by_cases h0 : k0 = k
    · subst h0
      rw [dictSet, if_pos rfl, dictSet, if_pos rfl, dictSet, if_pos rfl]
    · rw [dictSet, if_neg h0, dictSet, if_neg h0, dictSet, if_neg h0, ih]

theorem mem_dictKeys_iff_dictMem {α : Type} (d : List (String × α)) (k : String) :
    k ∈ dictKeys d ↔ dictMem d k = true := by
  induction d with
  | nil => simp [dictKeys, dictMem, dictGet]
  | cons kv rest ih =>
    obtain ⟨k0, v0⟩ := kv
    by_cases h0 : k0 = k
    · subst h0
      simp [dictKeys, dictMem, dictGet]
    · have hstep : dictMem ((k0, v0) :: rest) k = dictMem rest k := by
        rw [dictMem, dictGet, if_neg h0]
        rfl
      have hkk : ¬ k = k0 := fun h => h0 h.symm
      rw [hstep, ← ih]
      simp [dictKeys, hkk]

theorem dictKeys_dictSet {α : Type} (d : List (String × α)) (k : String) (v : α) :
    dictKeys (dictSet d k v) =
      if dictMem d k then dictKeys d else dictKeys d ++ [k] := by
  induction d with
  | nil => simp [dictSet, dictKeys, dictMem, dictGet]
  | cons kv rest ih =>
    obtain ⟨k0, v0⟩ := kv
    by_cases h0 : k0 = k
    · subst h0
      simp [dictSet, dictKeys, dictMem, dictGet]
    · have hstep : dictMem ((k0, v0) :: rest) k = dictMem rest k := by
        rw [dictMem, dictGet, if_neg h0]
        rfl
      rw [hstep]
      simp only [dictSet, if_neg h0, dictKeys, List.map_cons]
      by_cases hm : dictMem rest k = true
      · rw [if_pos hm]
        rw [dictKeys] at ih
        rw [ih, if_pos hm]
        rfl
      · rw [if_neg hm]
        rw [dictKeys] at ih
        rw [ih, if_neg hm]
        simp [dictKeys]

theorem dictKeys_dictSet_nodup {α : Type} (d : List (String × α)) (k : String)
    (v : α) (h : (dictKeys d).Nodup) : (dictKeys (dictSet d k v)).Nodup := by
  rw [dictKeys_dictSet]
  split
  · exact h
  · next hmem =>
    have hk : ¬ k ∈ dictKeys d := by
      rw [mem_dictKeys_iff_dictMem]
      simpa using hmem
    simp [List.nodup_append, h, hk]

/-! ## Completion-loop lemmas -/

theorem runMap_cons (sections : List SectionDescriptor)
    (results : Nat → Except String String) (i : Nat) (rest : List Nat)
    (sc : List (String × String)) :
    runMap sections results (i :: rest) sc =
      runMap sections results rest
        (dictSet sc (titleAt sections i) (sectionResultText (results i))) := rfl

/-- Per-title lookup after a list of completions: the last completion
carrying the looked-up title wins; titles never completed fall through to
the initial map. -/
theorem dictGet_runMap (sections : List SectionDescriptor)
    (results : Nat → Except String String) :
    ∀ (p : List Nat) (sc : List (String × String)) (t : String),
      dictGet (runMap sections results p sc) t =
        match (p.filter (fun i => titleAt sections i = t)).getLast? with
        | some i => some (sectionResultText (results i))
        | none => dictGet sc t := by
  intro p
  induction p with
  | nil => intro sc t; rfl
  | cons i rest ih =>
    intro sc t
    rw [runMap_cons, ih]
    by_cases ht : titleAt sections i = t
    · rw [List.filter_cons_of_pos (by simpa using ht)]
      cases hfilter : rest.filter (fun j => titleAt sections j = t) with
      | nil =>
        simp only [hfilter, List.getLast?_singleton, List.getLast?_nil]
        rw [dictGet_dictSet, if_pos ht]
      | cons x xs =>
        rw [List.getLast?_cons_cons]
        cases hy : (x :: xs).getLast? with
        | none => exact absurd (List.getLast?_eq_none_iff.mp hy) (by simp)
        | some y => rfl
    · rw [List.filter_cons_of_neg (by simpa using ht)]
      cases hfilter : rest.filter (fun j => titleAt sections j = t) with
      | nil =>
        simp only [hfilter, List.getLast?_nil]
        rw [dictGet_dictSet, if_neg ht]
      | cons x xs =>
        cases hy : (x :: xs).getLast? with
        | none => exact absurd (List.getLast?_eq_none_iff.mp hy) (by simp)
        | some y => rfl

/-- A title is present in the map exactly when some completed index
carries it. -/
theorem dictMem_runMap (sections : List SectionDescriptor)
    (results : Nat → Except String String) (p : List Nat) (t : String) :
    dictMem (runMap sections results p []) t = true ↔
      ∃ i ∈ p, titleAt sections i = t := by
  rw [dictMem, dictGet_runMap]
  cases hlast : (p.filter (fun i => titleAt sections i = t)).getLast? with
  | some i =>
    simp only [Option.isSome_some, true_iff]
    have hmem : i ∈ p.filter (fun j => titleAt sections j = t) :=
      List.mem_of_mem_getLast? (by rw [hlast]; rfl)
    have := List.mem_filter.mp hmem
    exact ⟨i, this.1, by simpa using this.2⟩
  | none =>
    have hnil : p.filter (fun i => titleAt sections i = t) = [] :=
      List.getLast?_eq_none_iff.mp hlast
    simp only [dictGet]
    constructor
    · intro h
      simp at h
    · rintro ⟨i, hip, hit⟩
      have : i ∈ p.filter (fun j => titleAt sections j = t) :=
        List.mem_filter.mpr ⟨hip, by simpa using hit⟩
      rw [hnil] at this
      simp at this

/-- An in-range defaulted read is the indexed read. -/
theorem section_getD_eq_get (sections : List SectionDescriptor) {i : Nat}
    (hi : i < sections.length) :
    sections.getD i ⟨none⟩ = sections.get ⟨i, hi⟩ := by
  rw [List.getD_eq_getElem?_getD, ← List.get?_eq_getElem?, List.get?_eq_get hi]
  rfl

/-- Distinct planned titles make the title of an index injective. -/
theorem titleAt_inj (sections : List SectionDescriptor)
    (hT : (sections.map sectionTitle).Nodup) {i j : Nat}
    (hi : i < sections.length) (hj : j < sections.length)
    (h : titleAt sections i = titleAt sections j) : i = j := by
  have hmi : titleAt sections i
      = (sections.map sectionTitle).get ⟨i, by simpa using hi⟩ := by
    rw [List.get_map]
    unfold titleAt
    rw [section_getD_eq_get sections hi]
  have hmj : titleAt sections j
      = (sections.map sectionTitle).get ⟨j, by simpa using hj⟩ := by
    rw [List.get_map]
    unfold titleAt
    rw [section_getD_eq_get sections hj]
  have hfin : (⟨i, by simpa using hi⟩ : Fin (sections.map sectionTitle).length)
      = ⟨j, by simpa using hj⟩ := by
    apply (hT.get_inj_iff).mp
    rw [← hmi, ← hmj]
    exact h
  simpa using congrArg Fin.val hfin

/-- The planned titles as a map over the index range. -/
theorem titles_eq_range_map (sections : List SectionDescriptor) :
    sections.map sectionTitle
      = (List.range sections.length).map (fun i => titleAt sections i) := by
  apply List.ext_get (by simp)
  intro i h1 h2
  simp only [List.get_map, List.get_range]
  have hi : i < sections.length := by simpa using h1
  unfold titleAt
  rw [section_getD_eq_get sections hi]

/-- With distinct planned titles, the merged document after completing the
indices of `p` consists of exactly the completed sections' contents, in
planned order. -/
theorem mergeReportText_runMap (sections : List SectionDescriptor)
    (results : Nat → Except String String) (p : List Nat)
    (hT : (sections.map sectionTitle).Nodup)
    (hp : ∀ i ∈ p, i < sections.length) :
    mergeReportText sections (runMap sections results p []) =
      String.intercalate "\n\n---\n\n"
        (((List.range sections.length).filter (fun i => i ∈ p)).map
          (fun i => sectionResultText (results i))) := by
  unfold mergeReportText
  rw [titles_eq_range_map]
  show "\n\n---\n\n".intercalate
      (List.map (fun t => dictGetD (runMap sections results p []) t "")
        (List.filter (fun t => dictMem (runMap sections results p []) t)
          (List.map (fun i => titleAt sections i) (List.range sections.length)))) = _
  rw [List.filter_map, List.map_map]
  have hfc : (List.range sections.length).filter
      ((fun t => dictMem (runMap sections results p []) t) ∘ fun i => titleAt sections i)
      = (List.range sections.length).filter (fun i => i ∈ p) := by
    apply List.filter_congr
    intro i hi
    have hin : i < sections.length := by simpa using hi
    by_cases hip : i ∈ p
    · have hmem : dictMem (runMap sections results p []) (titleAt sections i) = true :=
        (dictMem_runMap sections results p _).mpr ⟨i, hip, rfl⟩
      simp [Function.comp, hmem, hip]
    · have hnm : dictMem (runMap sections results p []) (titleAt sections i) = false := by
        rw [Bool.eq_false_iff]
        intro h
        obtain ⟨j, hjp, hjt⟩ := (dictMem_runMap sections results p _).mp h
        exact hip (titleAt_inj sections hT (hp j hjp) hin hjt ▸ hjp)
      simp [Function.comp, hnm, hip]
  rw [hfc]
  apply congrArg (String.intercalate "\n\n---\n\n")
  apply List.map_congr_left
  intro i hi
  have hmem := List.mem_filter.mp hi
  have hin : i < sections.length := by simpa using hmem.1
  have hip : i ∈ p := by simpa using hmem.2
  show dictGetD (runMap sections results p []) (titleAt sections i) ""
    = sectionResultText (results i)
  unfold dictGetD
  rw [dictGet_runMap]
  have hfilter_eq : p.filter (fun j => titleAt sections j = titleAt sections i)
      = p.filter (fun j => j = i) := by
    apply List.filter_congr
    intro j hj
    by_cases hje : j = i
    · subst hje
      simp
    · have hne : ¬ titleAt sections j = titleAt sections i := fun h =>
        hje (titleAt_inj sections hT (hp j hj) hin h)
      simp [hne, hje]
  rw [hfilter_eq]
  have hne : p.filter (fun j => j = i) ≠ [] := by
    intro hnil
    have hmm : i ∈ p.filter (fun j => j = i) :=
      List.mem_filter.mpr ⟨hip, by simp⟩
    rw [hnil] at hmm
    simp at hmm
  cases hlast : (p.filter (fun j => j = i)).getLast? with
  | none => exact absurd (List.getLast?_eq_none_iff.mp hlast) hne
  | some x =>
    have hx : x ∈ p.filter (fun j => j = i) :=
      List.mem_of_mem_getLast? (by rw [hlast]; rfl)
    have hxi : x = i := by simpa using (List.mem_filter.mp hx).2
    subst hxi
    rfl

/-- The persisted-or-skipped checkpoint payload for one completion. -/
def saveFlag (todoId procFormId : Option String)
    (payload : List (String × String)) : Option (List (String × String)) :=
  if pyTruthyOptStr todoId && pyTruthyOptStr procFormId && !payload.isEmpty then
    some payload
  else none

/-- Closed form of the completion-drain loop: the final per-title map is
the fold of the completions, the final `report_contents` carries the merge
of the full map (unchanged when nothing completed), and the `k`-th
checkpoint carries the merge of the first `k+1` completions. -/
theorem runSectionsLoop_eq (todoId procFormId : Option String)
    (reportKey : String) (sections : List SectionDescriptor)
    (results : Nat → Except String String) :
    ∀ (done : List Nat) (sc rc : List (String × String)),
      runSectionsLoop todoId procFormId reportKey sections results done sc rc
        = (runMap sections results done sc,
           (if done.isEmpty then rc
            else dictSet rc reportKey
              (mergeReportText sections (runMap sections results done sc))),
           (List.range done.length).map (fun k =>
             saveFlag todoId procFormId
               (dictSet rc reportKey
                 (mergeReportText sections
                   (runMap sections results (done.take (k + 1)) sc))))) := by
  intro done
  induction done with
  | nil => intro sc rc; rfl
  | cons i rest ih =>
    intro sc rc
    rw [runSectionsLoop]
    simp only [saveIntermediateResult, ih]
    rw [show (i :: rest).length = rest.length + 1 from rfl,
      List.range_succ_eq_map, List.map_cons, List.map_map]
    refine congrArg₂ Prod.mk rfl (congrArg₂ Prod.mk ?_ (congrArg₂ List.cons ?_ ?_))
    · -- final report_contents
      rw [if_neg (show ¬(i :: rest).isEmpty = true by simp)]
      by_cases hrest : rest.isEmpty = true
      · have hnil : rest = [] := by simpa [List.isEmpty_iff] using hrest
        subst hnil
        rw [if_pos hrest]
        rfl
      · rw [if_neg hrest, dictSet_dictSet_same]
        rfl
    · -- head checkpoint: the merge after the first completion
      rfl
    · -- tail checkpoints, with the double dictSet collapsed
      apply List.map_congr_left
      intro k _
      simp only [Function.comp]
      rw [dictSet_dictSet_same]
      rfl

/-- Closed form of one report key's run: final map, final
`report_contents` entry (the `_merge_report_sections` write), and the
checkpoint trail. -/
theorem generateReportKey_eq (todoId procFormId : Option String)
    (reportKey : String) (sections : List SectionDescriptor)
    (results : Nat → Except String String) (order : List Nat)
    (rc : List (String × String)) :
    generateReportKey todoId procFormId reportKey sections results order rc
      = (runMap sections results order [],
         dictSet rc reportKey
           (mergeReportText sections (runMap sections results order [])),
         (List.range order.length).map (fun k =>
           saveFlag todoId procFormId
             (dictSet rc reportKey
               (mergeReportText sections
                 (runMap sections results (order.take (k + 1)) []))))) := by
  unfold generateReportKey
  simp only [runSectionsLoop_eq]
  by_cases horder : order.isEmpty = true
  · rw [if_pos horder]
  · rw [if_neg horder, dictSet_dictSet_same]

/-- With distinct planned titles, a completed index's own content is what
the map holds under its title. -/
theorem dictGet_runMap_self (sections : List SectionDescriptor)
    (results : Nat → Except String String) (p : List Nat)
    (hT : (sections.map sectionTitle).Nodup)
    (hp : ∀ i ∈ p, i < sections.length) {i : Nat}
    (hin : i < sections.length) (hip : i ∈ p) :
    dictGet (runMap sections results p []) (titleAt sections i)
      = some (sectionResultText (results i)) := by
  rw [dictGet_runMap]
  have hfilter_eq : p.filter (fun j => titleAt sections j = titleAt sections i)
      = p.filter (fun j => j = i) := by
    apply List.filter_congr
    intro j hj
    by_cases hje : j = i
    · subst hje
      simp
    · have hne : ¬ titleAt sections j = titleAt sections i := fun h =>
        hje (titleAt_inj sections hT (hp j hj) hin h)
      simp [hne, hje]
  rw [hfilter_eq]
  have hne : p.filter (fun j => j = i) ≠ [] := by
    intro hnil
    have hmm : i ∈ p.filter (fun j => j = i) :=
      List.mem_filter.mpr ⟨hip, by simp⟩
    rw [hnil] at hmm
    simp at hmm
  cases hlast : (p.filter (fun j => j = i)).getLast? with
  | none => exact absurd (List.getLast?_eq_none_iff.mp hlast) hne
  | some x =>
    have hx : x ∈ p.filter (fun j => j = i) :=
      List.mem_of_mem_getLast? (by rw [hlast]; rfl)
    have hxi : x = i := by simpa using (List.mem_filter.mp hx).2
    subst hxi
    rfl

/-- Defaulted indexing into a map over an index range. -/
theorem getD_map_range {α : Type} {f : Nat → α} {n k : Nat} (hk : k < n) {d : α} :
    ((List.range n).map f).getD k d = f k := by
  rw [List.getD_eq_getElem?_getD, List.getElem?_map, List.getElem?_range hk]
  rfl

/-- C3: after any `k` of the sections of one report key complete, in any
completion order, the checkpoint written after the `k`-th completion (one
checkpoint per completion) stores, under the report key, exactly the
completed sections' contents in planned order — each under its original
title, none repeated, none from the not-yet-completed remainder.  The
persistence gate requires the work-item and form ids to be truthy. -/
theorem checkpoint_monotonicity (todoId procFormId : Option String)
    (reportKey : String) (sections : List SectionDescriptor)
    (results : Nat → Except String String) (done : List Nat)
    (rc : List (String × String))
    (hT : (sections.map sectionTitle).Nodup)
    (hdone : ∀ i ∈ done, i < sections.length)
    (htodo : pyTruthyOptStr todoId = true)
    (hproc : pyTruthyOptStr procFormId = true) :
    (runSectionsLoop todoId procFormId reportKey sections results done [] rc).2.2.length
        = done.length ∧
    ∀ k, k < done.length →
      (runSectionsLoop todoId procFormId reportKey sections results done [] rc).2.2.getD k none
        = some (dictSet rc reportKey
            (String.intercalate "\n\n---\n\n"
              (((List.range sections.length).filter (fun i => i ∈ done.take (k + 1))).map
                (fun i => sectionResultText (results i))))) := by
  rw [runSectionsLoop_eq]
  constructor
  · simp
  · intro k hk
    show (List.map (fun k => saveFlag todoId procFormId
        (dictSet rc reportKey
          (mergeReportText sections
            (runMap sections results (List.take (k + 1) done) []))))
      (List.range done.length)).getD k none = _
    rw [getD_map_range (by simpa using hk)]
    unfold saveFlag
    rw [if_pos (by
      rw [htodo, hproc]
      simp [dictSet_ne_nil])]
    rw [mergeReportText_runMap sections results (done.take (k + 1)) hT
      (fun i hi => hdone i (List.take_subset (k + 1) done hi))]

/-- Witness for the checkpoint-monotonicity theorem: two sections titled
`Intro` and `Body` completing in the order `Body` then `Intro`. -/
theorem checkpoint_monotonicity_witness :
    ((⟨some ⟨some "Intro"⟩⟩ : SectionDescriptor) :: [⟨some ⟨some "Body"⟩⟩]).map sectionTitle
        = ["Intro", "Body"] ∧
    (runSectionsLoop (some "t") (some "p") "r1"
        [⟨some ⟨some "Intro"⟩⟩, ⟨some ⟨some "Body"⟩⟩]
        (fun i => if i = 0 then Except.ok "ic" else Except.ok "bc")
        [1, 0] [] []).2.2.length = 2 ∧
    (runSectionsLoop (some "t") (some "p") "r1"
        [⟨some ⟨some "Intro"⟩⟩, ⟨some ⟨some "Body"⟩⟩]
        (fun i => if i = 0 then Except.ok "ic" else Except.ok "bc")
        [1, 0] [] []).2.2.getD 0 none
      = some (dictSet [] "r1"
          (String.intercalate "\n\n---\n\n"
            (((List.range 2).filter (fun i => i ∈ [1])).map
              (fun i => sectionResultText
                (if i = 0 then Except.ok "ic" else Except.ok "bc"))))) := by
  refine ⟨by decide, ?_, ?_⟩
  · exact (checkpoint_monotonicity (some "t") (some "p") "r1"
      [⟨some ⟨some "Intro"⟩⟩, ⟨some ⟨some "Body"⟩⟩]
      (fun i => if i = 0 then Except.ok "ic" else Except.ok "bc")
      [1, 0] [] (by decide) (by decide) rfl rfl).1
  · exact (checkpoint_monotonicity (some "t") (some "p") "r1"
      [⟨some ⟨some "Intro"⟩⟩, ⟨some ⟨some "Body"⟩⟩]
      (fun i => if i = 0 then Except.ok "ic" else Except.ok "bc")
      [1, 0] [] (by decide) (by decide) rfl rfl).2 0 (by decide)

/-- C6: when one section's generation raises, that section's slot in the
per-title map is filled with the failure placeholder built from the
exception text, the section is not retried, the completion loop processes
every section without an exception escaping (one checkpoint slot per
completion), and the final merge and `report_contents` write proceed over
all sections with the placeholder included. -/
theorem section_failure_isolation (todoId procFormId : Option String)
    (reportKey : String) (sections : List SectionDescriptor)
    (results : Nat → Except String String) (order : List Nat)
    (i0 : Nat) (msg : String) (rc : List (String × String))
    (hT : (sections.map sectionTitle).Nodup)
    (hperm : order.Perm (List.range sections.length))
    (hi0 : i0 < sections.length)
    (hfail : results i0 = .error msg) :
    dictGet (generateReportKey todoId procFormId reportKey sections results order rc).1
        (titleAt sections i0) = some ("섹션 생성 실패: " ++ msg) ∧
    (∀ j, j < sections.length →
      dictMem (generateReportKey todoId procFormId reportKey sections results order rc).1
        (titleAt sections j) = true) ∧
    (generateReportKey todoId procFormId reportKey sections results order rc).2.2.length
        = order.length ∧
    dictGet (generateReportKey todoId procFormId reportKey sections results order rc).2.1
        reportKey
      = some (String.intercalate "\n\n---\n\n"
          ((List.range sections.length).map (fun i => sectionResultText (results i)))) := by
  have hmem : ∀ i ∈ order, i < sections.length := fun i hi =>
    List.mem_range.mp (hperm.mem_iff.mp hi)
  rw [generateReportKey_eq]
  refine ⟨?_, ?_, by simp, ?_⟩
  · show dictGet (runMap sections results order []) (titleAt sections i0) = _
    rw [dictGet_runMap_self sections results order hT hmem hi0
      (hperm.mem_iff.mpr (List.mem_range.mpr hi0))]
    rw [show sectionResultText (results i0) = "섹션 생성 실패: " ++ msg by
      rw [hfail]
      rfl]
  · intro j hj
    show dictMem (runMap sections results order []) (titleAt sections j) = true
    exact (dictMem_runMap sections results order _).mpr
      ⟨j, hperm.mem_iff.mpr (List.mem_range.mpr hj), rfl⟩
  · show dictGet (dictSet rc reportKey
      (mergeReportText sections (runMap sections results order []))) reportKey = _
    rw [dictGet_dictSet, if_pos rfl,
      mergeReportText_runMap sections results order hT hmem]
    have hall : (List.range sections.length).filter (fun i => i ∈ order)
        = List.range sections.length := by
      apply List.filter_eq_self.mpr
      intro i hi
      simpa using hperm.mem_iff.mpr hi
    rw [hall]

/-- Witness for the failure-isolation theorem: the second of two sections
fails with `boom` and completes first. -/
theorem section_failure_isolation_witness :
    dictGet (generateReportKey (some "t") (some "p") "r1"
        [⟨some ⟨some "Intro"⟩⟩, ⟨some ⟨some "Body"⟩⟩]
        (fun i => if i = 0 then Except.ok "ic" else Except.error "boom")
        [1, 0] []).1
      (titleAt [⟨some ⟨some "Intro"⟩⟩, ⟨some ⟨some "Body"⟩⟩] 1)
        = some ("섹션 생성 실패: " ++ "boom") ∧
    dictGet (generateReportKey (some "t") (some "p") "r1"
        [⟨some ⟨some "Intro"⟩⟩, ⟨some ⟨some "Body"⟩⟩]
        (fun i => if i = 0 then Except.ok "ic" else Except.error "boom")
        [1, 0] []).2.1 "r1"
      = some (String.intercalate "\n\n---\n\n"
          ((List.range 2).map (fun i => sectionResultText
            (if i = 0 then Except.ok "ic" else Except.error "boom")))) := by
  have h := section_failure_isolation (some "t") (some "p") "r1"
    [⟨some ⟨some "Intro"⟩⟩, ⟨some ⟨some "Body"⟩⟩]
    (fun i => if i = 0 then Except.ok "ic" else Except.error "boom")
    [1, 0] 1 "boom" [] (by decide) (by decide) (by decide) rfl
  exact ⟨h.1, h.2.2.2⟩

/-- C2: (a) the merge output is a pure function of the planned title
sequence and of the per-title content map read as a lookup function; (b)
for any two completion orders of the same section tasks — each task
writing its content under its original title, so lookups stay stable —
the merged text is byte-identical; (c) on a non-empty run the final
`_merge_report_sections` write stores exactly the merge of the final map,
and the last checkpoint had already stored that same document, so the
repeated merge is idempotent. -/
theorem merge_order_invariance :
    (∀ (sections sections' : List SectionDescriptor)
        (m m' : List (String × String)),
      sections.map sectionTitle = sections'.map sectionTitle →
      (∀ t, dictGet m t = dictGet m' t) →
      mergeReportText sections m = mergeReportText sections' m') ∧
    (∀ (sections : List SectionDescriptor) (contents : String → String)
        (ord₁ ord₂ : List Nat), ord₁.Perm ord₂ →
      mergeReportText sections
          (runMap sections (fun i => Except.ok (contents (titleAt sections i))) ord₁ [])
        = mergeReportText sections
          (runMap sections (fun i => Except.ok (contents (titleAt sections i))) ord₂ [])) ∧
    (∀ (todoId procFormId : Option String) (reportKey : String)
        (sections : List SectionDescriptor)
        (results : Nat → Except String String) (order : List Nat)
        (rc : List (String × String)),
      pyTruthyOptStr todoId = true → pyTruthyOptStr procFormId = true →
      order ≠ [] →
      dictGet (generateReportKey todoId procFormId reportKey sections results order rc).2.1
          reportKey
        = some (mergeReportText sections
            (generateReportKey todoId procFormId reportKey sections results order rc).1) ∧
      (generateReportKey todoId procFormId reportKey sections results order rc).2.2.getLast?
        = some (some (dictSet rc reportKey
            (mergeReportText sections
              (generateReportKey todoId procFormId reportKey sections results order rc).1)))) := by
  have hext : ∀ (sections sections' : List SectionDescriptor)
      (m m' : List (String × String)),
      sections.map sectionTitle = sections'.map sectionTitle →
      (∀ t, dictGet m t = dictGet m' t) →
      mergeReportText sections m = mergeReportText sections' m' := by
    intro sections sections' m m' ht hm
    unfold mergeReportText
    rw [ht]
    have hfil : (sections'.map sectionTitle).filter (fun t => dictMem m t)
        = (sections'.map sectionTitle).filter (fun t => dictMem m' t) :=
      List.filter_congr (fun t _ => by unfold dictMem; rw [hm t])
    rw [hfil]
    apply congrArg
    apply List.map_congr_left
    intro t _
    unfold dictGetD
    rw [hm t]
  refine ⟨hext, ?_, ?_⟩
  · intro sections contents ord₁ ord₂ hperm
    apply hext sections sections _ _ rfl
    intro t
    rw [dictGet_runMap, dictGet_runMap]
    have hpf : (ord₁.filter (fun i => titleAt sections i = t)).Perm
        (ord₂.filter (fun i => titleAt sections i = t)) := hperm.filter _
    cases h1 : (ord₁.filter (fun i => titleAt sections i = t)).getLast? with
    | none =>
      have hn1 : ord₁.filter (fun i => titleAt sections i = t) = [] :=
        List.getLast?_eq_none_iff.mp h1
      have hn2 : ord₂.filter (fun i => titleAt sections i = t) = [] := by
        rw [hn1] at hpf
        exact (List.Perm.nil_eq hpf).symm
      rw [hn2]
      rfl
    | some j₁ =>
      cases h2 : (ord₂.filter (fun i => titleAt sections i = t)).getLast? with
      | none =>
        exfalso
        have hn2 : ord₂.filter (fun i => titleAt sections i = t) = [] :=
          List.getLast?_eq_none_iff.mp h2
        rw [hn2] at hpf
        rw [List.Perm.eq_nil hpf] at h1
        simp at h1
      | some j₂ =>
        have hj₁ : titleAt sections j₁ = t :=
          of_decide_eq_true (List.mem_filter.mp
            (List.mem_of_mem_getLast? (l := ord₁.filter _) (by rw [h1]; rfl))).2
        have hj₂ : titleAt sections j₂ = t :=
          of_decide_eq_true (List.mem_filter.mp
            (List.mem_of_mem_getLast? (l := ord₂.filter _) (by rw [h2]; rfl))).2
        show some (sectionResultText (Except.ok (contents (titleAt sections j₁))))
          = some (sectionResultText (Except.ok (contents (titleAt sections j₂))))
        rw [hj₁, hj₂]
  · intro todoId procFormId reportKey sections results order rc htodo hproc horder
    rw [generateReportKey_eq]
    constructor
    · show dictGet (dictSet rc reportKey
        (mergeReportText sections (runMap sections results order []))) reportKey = _
      rw [dictGet_dictSet, if_pos rfl]
    · show ((List.range order.length).map (fun k =>
        saveFlag todoId procFormId
          (dictSet rc reportKey
            (mergeReportText sections
              (runMap sections results (order.take (k + 1)) []))))).getLast? = _
      obtain ⟨m, hm⟩ : ∃ m, order.length = m + 1 := by
        cases order with
        | nil => exact absurd rfl horder
        | cons a l => exact ⟨l.length, rfl⟩
      rw [hm, List.range_succ, List.map_append, List.map_singleton,
        List.getLast?_concat]
      have htake : order.take (m + 1) = order := by
        rw [← hm]
        exact List.take_length order
      rw [htake]
      unfold saveFlag
      rw [if_pos (by rw [htodo, hproc]; simp [dictSet_ne_nil])]

/-- Witness for the merge-order-invariance theorem: two sections with
title-keyed contents completing in the two possible orders, and a
non-empty run exercising the final write and last checkpoint. -/
theorem merge_order_invariance_witness :
    ([0, 1].Perm [1, 0] ∧
      mergeReportText [⟨some ⟨some "Intro"⟩⟩, ⟨some ⟨some "Body"⟩⟩]
          (runMap [⟨some ⟨some "Intro"⟩⟩, ⟨some ⟨some "Body"⟩⟩]
            (fun i => Except.ok
              ("c-" ++ titleAt [⟨some ⟨some "Intro"⟩⟩, ⟨some ⟨some "Body"⟩⟩] i))
            [0, 1] [])
        = mergeReportText [⟨some ⟨some "Intro"⟩⟩, ⟨some ⟨some "Body"⟩⟩]
          (runMap [⟨some ⟨some "Intro"⟩⟩, ⟨some ⟨some "Body"⟩⟩]
            (fun i => Except.ok
              ("c-" ++ titleAt [⟨some ⟨some "Intro"⟩⟩, ⟨some ⟨some "Body"⟩⟩] i))
            [1, 0] [])) ∧
    dictGet (generateReportKey (some "t") (some "p") "r1"
        [⟨some ⟨some "Intro"⟩⟩, ⟨some ⟨some "Body"⟩⟩]
        (fun _ => Except.ok "c") [0, 1] []).2.1 "r1"
      = some (mergeReportText [⟨some ⟨some "Intro"⟩⟩, ⟨some ⟨some "Body"⟩⟩]
          (generateReportKey (some "t") (some "p") "r1"
            [⟨some ⟨some "Intro"⟩⟩, ⟨some ⟨some "Body"⟩⟩]
            (fun _ => Except.ok "c") [0, 1] []).1) := by
  refine ⟨⟨by decide, ?_⟩, ?_⟩
  · exact merge_order_invariance.2.1 [⟨some ⟨some "Intro"⟩⟩, ⟨some ⟨some "Body"⟩⟩]
      (fun t => "c-" ++ t) [0, 1] [1, 0] (by decide)
  · exact (merge_order_invariance.2.2 (some "t") (some "p") "r1"
      [⟨some ⟨some "Intro"⟩⟩, ⟨some ⟨some "Body"⟩⟩]
      (fun _ => Except.ok "c") [0, 1] [] rfl rfl (by decide)).1

/-- `dictSet` folds keep the map's keys free of duplicates. -/
theorem runMap_keys_nodup (sections : List SectionDescriptor)
    (results : Nat → Except String String) :
    ∀ (p : List Nat) (sc : List (String × String)),
      (dictKeys sc).Nodup → (dictKeys (runMap sections results p sc)).Nodup := by
  intro p
  induction p with
  | nil => exact fun sc h => h
  | cons i rest ih =>
    intro sc h
    rw [runMap_cons]
    exact ih _ (dictKeys_dictSet_nodup _ _ _ h)

/-- C10: when two planned sections share a title, the per-title content
map holds a single entry for that title — the content of whichever of its
sections completed last — and the merged report repeats that one
surviving content at every planned occurrence of the title, so the
earlier completion's content survives nowhere. -/
theorem duplicate_title_overwrite
    (sections : List SectionDescriptor) (results : Nat → Except String String)
    (order : List Nat) (i j : Nat) (t : String)
    (hij : i ≠ j) (hi : i < sections.length) (hj : j < sections.length)
    (hti : titleAt sections i = t) (htj : titleAt sections j = t)
    (hperm : order.Perm (List.range sections.length)) :
    (dictKeys (runMap sections results order [])).Nodup ∧
    (∃ w, (order.filter (fun idx => titleAt sections idx = t)).getLast? = some w ∧
      titleAt sections w = t ∧
      dictGet (runMap sections results order []) t
        = some (sectionResultText (results w))) ∧
    mergeReportText sections (runMap sections results order [])
      = String.intercalate "\n\n---\n\n"
          (sections.map (fun s =>
            dictGetD (runMap sections results order []) (sectionTitle s) "")) := by
  have hiord : i ∈ order := hperm.mem_iff.mpr (List.mem_range.mpr hi)
  refine ⟨runMap_keys_nodup sections results order [] (by simp [dictKeys]), ?_, ?_⟩
  · cases hlast : (order.filter (fun idx => titleAt sections idx = t)).getLast? with
    | none =>
      exfalso
      have hnil := List.getLast?_eq_none_iff.mp hlast
      have : i ∈ order.filter (fun idx => titleAt sections idx = t) :=
        List.mem_filter.mpr ⟨hiord, by simpa using hti⟩
      rw [hnil] at this
      simp at this
    | some w =>
      have hw : w ∈ order.filter (fun idx => titleAt sections idx = t) :=
        List.mem_of_mem_getLast? (by rw [hlast]; rfl)
      refine ⟨w, rfl, of_decide_eq_true (List.mem_filter.mp hw).2, ?_⟩
      rw [dictGet_runMap, hlast]
  · have hmemall : ∀ t' ∈ sections.map sectionTitle,
        dictMem (runMap sections results order []) t' = true := by
      intro t' ht'
      rw [titles_eq_range_map] at ht'
      obtain ⟨idx, hidx, rfl⟩ := List.mem_map.mp ht'
      exact (dictMem_runMap sections results order _).mpr
        ⟨idx, hperm.mem_iff.mpr hidx, rfl⟩
    unfold mergeReportText
    rw [List.filter_eq_self.mpr (fun t' h => hmemall t' h), List.map_map]
    rfl

/-- Witness for the duplicate-title theorem: two sections both titled `T`,
completing in plan order; the later completion's content is the single
survivor and the merge repeats it twice. -/
theorem duplicate_title_overwrite_witness :
    (dictKeys (runMap [⟨some ⟨some "T"⟩⟩, ⟨some ⟨some "T"⟩⟩]
        (fun idx => if idx = 0 then Except.ok "first" else Except.ok "second")
        [0, 1] [])).Nodup ∧
    dictGet (runMap [⟨some ⟨some "T"⟩⟩, ⟨some ⟨some "T"⟩⟩]
        (fun idx => if idx = 0 then Except.ok "first" else Except.ok "second")
        [0, 1] []) "T" = some "second" ∧
    mergeReportText [⟨some ⟨some "T"⟩⟩, ⟨some ⟨some "T"⟩⟩]
      (runMap [⟨some ⟨some "T"⟩⟩, ⟨some ⟨some "T"⟩⟩]
        (fun idx => if idx = 0 then Except.ok "first" else Except.ok "second")
        [0, 1] []) = "second\n\n---\n\nsecond" := by
  refine ⟨(duplicate_title_overwrite [⟨some ⟨some "T"⟩⟩, ⟨some ⟨some "T"⟩⟩]
    (fun idx => if idx = 0 then Except.ok "first" else Except.ok "second")
    [0, 1] 0 1 "T" (by decide) (by decide) (by decide) (by decide) (by decide)
    (by decide)).1, by decide, by decide⟩

/-- `extract_changes` always records `has_changes` as the truthiness of
its own insertion/deletion lists. -/
theorem extract_changes_flag (o m : String) :
    (extract_changes o m).has_changes =
      !((extract_changes o m).insertions.isEmpty &&
        (extract_changes o m).deletions.isEmpty) := by
  by_cases h : ¬ pyTruthyStr o ∧ ¬ pyTruthyStr m
  · rw [extract_changes, if_pos h]
    rfl
  · rw [extract_changes, if_neg h]

/-- Unfolding equation for one step of the per-key comparison loop. -/
theorem compareKeysLoop_cons (dR oR : List (String × PyVal)) (k : String)
    (rest : List String) :
    compareKeysLoop dR oR (k :: rest) =
      if pyValStr (dictGetD dR k (PyVal.str "")) ≠ pyValStr (dictGetD oR k (PyVal.str "")) then
        if (extract_changes (pyValStr (dictGetD dR k (PyVal.str "")))
              (pyValStr (dictGetD oR k (PyVal.str "")))).has_changes then
          (createSimpleDiff (extract_changes (pyValStr (dictGetD dR k (PyVal.str "")))
              (pyValStr (dictGetD oR k (PyVal.str "")))) k :: (compareKeysLoop dR oR rest).1,
           ⟨k, pyValStr (dictGetD dR k (PyVal.str "")),
             pyValStr (dictGetD oR k (PyVal.str "")),
             extract_changes (pyValStr (dictGetD dR k (PyVal.str "")))
               (pyValStr (dictGetD oR k (PyVal.str ""))),
             createSimpleDiff (extract_changes (pyValStr (dictGetD dR k (PyVal.str "")))
               (pyValStr (dictGetD oR k (PyVal.str "")))) k⟩ :: (compareKeysLoop dR oR rest).2)
        else compareKeysLoop dR oR rest
      else compareKeysLoop dR oR rest := rfl

/-- Loop invariant of `compare_report_changes`: every appended comparison
carries a genuinely non-empty `ChangeSet`, and the diff-summary list and
the comparison list are empty together. -/
theorem compareKeysLoop_inv (dR oR : List (String × PyVal)) (ks : List String) :
    (∀ c ∈ (compareKeysLoop dR oR ks).2,
      (c.changes.insertions.isEmpty && c.changes.deletions.isEmpty) = false) ∧
    ((compareKeysLoop dR oR ks).1 = [] ↔ (compareKeysLoop dR oR ks).2 = []) := by
  induction ks with
  | nil =>
    exact ⟨fun c hc => absurd hc (by simp [compareKeysLoop]), by simp [compareKeysLoop]⟩
  | cons k rest ih =>
    obtain ⟨ih1, ih2⟩ := ih
    rw [compareKeysLoop_cons]
    by_cases hne : pyValStr (dictGetD dR k (PyVal.str "")) = pyValStr (dictGetD oR k (PyVal.str ""))
    · rw [if_neg (not_not_intro hne)]
      exact ⟨ih1, ih2⟩
    · rw [if_pos hne]
      by_cases hch : (extract_changes (pyValStr (dictGetD dR k (PyVal.str "")))
          (pyValStr (dictGetD oR k (PyVal.str "")))).has_changes = true
      · rw [if_pos hch]
        refine ⟨?_, by simp⟩
        intro c hc
        rcases List.mem_cons.mp hc with hceq | hcm
        · subst hceq
          have hflag := extract_changes_flag (pyValStr (dictGetD dR k (PyVal.str "")))
            (pyValStr (dictGetD oR k (PyVal.str "")))
          rw [hch] at hflag
          cases hZ : ((extract_changes (pyValStr (dictGetD dR k (PyVal.str "")))
              (pyValStr (dictGetD oR k (PyVal.str "")))).insertions.isEmpty &&
            (extract_changes (pyValStr (dictGetD dR k (PyVal.str "")))
              (pyValStr (dictGetD oR k (PyVal.str "")))).deletions.isEmpty) with
          | false => rfl
          | true =>
            rw [hZ] at hflag
            exact absurd hflag (by decide)
        · exact ih1 c hcm
      · rw [if_neg hch]
        exact ⟨ih1, ih2⟩

/-- Fully reduced unfolding of `compare_report_changes`. -/
theorem compareReportChanges_eq (draft output : PyVal) :
    compareReportChanges draft output =
      if (extractDraftContents draft).isEmpty then ⟨"", []⟩
      else
        ⟨String.intercalate "\n\n"
            (compareKeysLoop (extractDraftContents draft)
              (extractOutputContents output ((dictKeys (extractDraftContents draft)).dedup))
              ((dictKeys (extractDraftContents draft)).dedup ++
                ((dictKeys (extractOutputContents output
                    ((dictKeys (extractDraftContents draft)).dedup))).dedup.filter
                  (fun k => ¬ k ∈ (dictKeys (extractDraftContents draft)).dedup)))).1,
          (compareKeysLoop (extractDraftContents draft)
              (extractOutputContents output ((dictKeys (extractDraftContents draft)).dedup))
              ((dictKeys (extractDraftContents draft)).dedup ++
                ((dictKeys (extractOutputContents output
                    ((dictKeys (extractDraftContents draft)).dedup))).dedup.filter
                  (fun k => ¬ k ∈ (dictKeys (extractDraftContents draft)).dedup)))).2⟩ := rfl

/-- Core of the short-circuit argument, over any diff result whose
comparisons all carry non-empty change sets and whose diff-summary list
and comparison list vanish together. -/
theorem feedback_short_circuit_core
    (callLLM : ChangeSet → List (String × String)) (uds : List String)
    (comps : List Comparison)
    (hinv : ∀ c ∈ comps, (c.changes.insertions.isEmpty && c.changes.deletions.isEmpty) = false)
    (hiff : uds = [] ↔ comps = [])
    (h : (aggregatedChanges ⟨String.intercalate "\n\n" uds, comps⟩).has_changes = false) :
    generateFeedbackFromDiffResult callLLM ⟨String.intercalate "\n\n" uds, comps⟩ = ([], 0) := by
  simp only [aggregatedChanges] at h
  simp at h
  have hcomps : comps = [] := by
    by_contra hne
    obtain ⟨c, hc⟩ := List.exists_mem_of_ne_nil comps hne
    have hcs := hinv c hc
    rw [h.1 c hc, h.2 c hc] at hcs
    simp at hcs
  have huds : uds = [] := hiff.mpr hcomps
  rw [huds, hcomps]
  rfl

/-- C7: when the aggregated `ChangeSet` over a diff result produced by
`compare_report_changes` has `has_changes = false`, the feedback generator
makes zero calls to the generation capability and returns the empty
feedback list. -/
theorem feedback_empty_diff_short_circuit
    (callLLM : ChangeSet → List (String × String)) (draft output : PyVal)
    (h : (aggregatedChanges (compareReportChanges draft output)).has_changes = false) :
    generateFeedbackFromDiffResult callLLM (compareReportChanges draft output) = ([], 0) := by
  by_cases hemp : (extractDraftContents draft).isEmpty = true
  · rw [compareReportChanges_eq, if_pos hemp]
    rfl
  · rw [compareReportChanges_eq, if_neg hemp] at h ⊢
    exact feedback_short_circuit_core callLLM _ _
      (compareKeysLoop_inv _ _ _).1 (compareKeysLoop_inv _ _ _).2 h

/-- Witness for the short-circuit theorem: identical draft and output
payloads aggregate to a changeless `ChangeSet` and produce the empty
feedback list with zero capability invocations. -/
theorem feedback_empty_diff_short_circuit_witness :
    (aggregatedChanges (compareReportChanges
        (.dict [("reports", .dict [("sec1", .str "A")])])
        (.dict [("container", .dict [("sec1", .str "A")])]))).has_changes = false ∧
    generateFeedbackFromDiffResult (fun cs => [("reviewer", String.intercalate "," cs.insertions)])
        (compareReportChanges
          (.dict [("reports", .dict [("sec1", .str "A")])])
          (.dict [("container", .dict [("sec1", .str "A")])])) = ([], 0) :=
  ⟨by decide, feedback_empty_diff_short_circuit _ _ _ (by decide)⟩

/-- C8: JSON parse failures on model-returned text are handled
asymmetrically.  After the code-fence clean-up, a failing parse of the
execution plan or of the section list yields the fatal error (the
surrounding handler re-raises and aborts the work item), whereas a failing
parse of the text-phase result stores the raw text under the default
`text_result` key instead of failing. -/
theorem parse_failure_asymmetry
    (loads : String → Option PyVal) (raw : String) (tc : List (String × PyVal))
    (h : loads (cleanJsonResponse raw) = none) :
    createExecutionPlanParse loads raw = .error "실행계획생성 실패" ∧
    createReportSectionsParse loads raw = .error "리포트생성 실패" ∧
    parseTextResults loads raw tc
      = dictSet tc "text_result" (.dict [("text", .str raw)]) := by
  refine ⟨?_, ?_, ?_⟩
  · rw [createExecutionPlanParse, h]
  · rw [createReportSectionsParse, h]
  · rw [parseTextResults, h]

/-- Witness for the parse-failure theorem: a parser that rejects
everything aborts the plan and section parses with their fatal messages
but leaves the text-result parse storing the raw text. -/
theorem parse_failure_asymmetry_witness :
    (fun _ : String => (none : Option PyVal)) (cleanJsonResponse "x") = none ∧
    createExecutionPlanParse (fun _ => none) "x" = .error "실행계획생성 실패" ∧
    createReportSectionsParse (fun _ => none) "x" = .error "리포트생성 실패" ∧
    parseTextResults (fun _ => none) "x" []
      = dictSet [] "text_result" (.dict [("text", .str "x")]) :=
  ⟨rfl, (parse_failure_asymmetry (fun _ => none) "x" [] rfl).1,
    (parse_failure_asymmetry (fun _ => none) "x" [] rfl).2.1,
    (parse_failure_asymmetry (fun _ => none) "x" [] rfl).2.2⟩

/-- The slide loop over a single form with dependency list `[X]`, driven
once per stored report: its invocation trace lists exactly the stored
reports whose key is `X`. -/
theorem createSlides_trace (f : FormDescriptor) (X : String)
    (g : String → String → String) (hdep : f.dependencies = [X]) :
    ∀ (rc : List (String × String))
      (st : List (String × String) × List (FormDescriptor × String)),
      (∀ k ∈ dictKeys rc, pyTruthyStr k = true) →
      (rc.foldl (fun st (kv : String × String) => createSlides [f] g kv.2 (some kv.1) st) st).2
        = st.2 ++ (rc.filter (fun kv => X == kv.1)).map (fun kv => (f, kv.2)) := by
  intro rc
  induction rc with
  | nil => intro st _; simp
  | cons kv rest ih =>
    intro st htru
    have htk : pyTruthyStr kv.1 = true := htru kv.1 (by simp [dictKeys])
    have htru' : ∀ k ∈ dictKeys rest, pyTruthyStr k = true := by
      intro k hk
      exact htru k (by simp [dictKeys] at hk ⊢; exact Or.inr hk)
    rw [List.foldl_cons]
    by_cases hX : kv.1 = X
    · have hstep : createSlides [f] g kv.2 (some kv.1) st
          = (dictSet st.1 f.key (g f.key kv.2), st.2 ++ [(f, kv.2)]) := by
        simp [createSlides, hdep, htk, hX]
      rw [hstep, ih _ htru']
      simp [List.filter_cons, hX]
    · have hstep : createSlides [f] g kv.2 (some kv.1) st = st := by
        simp [createSlides, hdep, htk, hX]
      rw [hstep, ih _ htru']
      simp [List.filter_cons, Ne.symm hX]

/-- Under duplicate-free keys, filtering an association list for one key
yields exactly the entry `dictGet` finds. -/
theorem filter_key_dictGet (X : String) :
    ∀ (rc : List (String × String)), (dictKeys rc).Nodup →
      rc.filter (fun kv => X == kv.1)
        = (match dictGet rc X with
           | some v => [(X, v)]
           | none => []) := by
  intro rc
  induction rc with
  | nil => intro _; rfl
  | cons kv rest ih =>
    obtain ⟨k, v⟩ := kv
    intro hnd
    have hnd' : (k :: dictKeys rest).Nodup := hnd
    obtain ⟨hhead, htail⟩ := List.nodup_cons.mp hnd'
    by_cases hX : k = X
    · rw [List.filter_cons_of_pos (by simp [hX])]
      have hget : dictGet ((k, v) :: rest) X = some v := by
        simp [dictGet, hX]
      rw [hget]
      have hrest : rest.filter (fun kv => X == kv.1) = [] := by
        refine List.filter_eq_nil_iff.mpr (fun a ha => ?_)
        simp only [beq_iff_eq]
        intro heq
        apply hhead
        rw [hX, heq]
        exact List.mem_map.mpr ⟨a, ha, rfl⟩
      rw [hrest, hX]
    · rw [List.filter_cons_of_neg (by simp; exact fun h => hX h.symm)]
      have hget : dictGet ((k, v) :: rest) X = dictGet rest X := by
        simp [dictGet, hX]
      rw [hget]
      exact ih htail

/-- The text-phase collection reads only each form's key: rewriting every
form's dependency list arbitrarily leaves `generate_texts` unchanged. -/
theorem generateTexts_deps_irrelevant (tf : List FormDescriptor)
    (fts : List FormType) (rc : List (String × String)) (prev : String)
    (g : FormDescriptor → List String) :
    generateTexts (tf.map (fun d => ⟨d.key, g d⟩)) fts rc prev
      = generateTexts tf fts rc prev := by
  have hfold : ∀ (l : List FormDescriptor) (acc : List FormType),
      (l.map (fun d => (⟨d.key, g d⟩ : FormDescriptor))).foldl
        (fun acc tf => if !pyTruthyStr tf.key then acc
          else acc ++ fts.filter (fun ft => ft.key == tf.key)) acc
      = l.foldl
        (fun acc tf => if !pyTruthyStr tf.key then acc
          else acc ++ fts.filter (fun ft => ft.key == tf.key)) acc := by
    intro l
    induction l with
    | nil => intro acc; rfl
    | cons d rest ih =>
      intro acc
      rw [List.map_cons, List.foldl_cons, List.foldl_cons]
      exact ih _
  simp only [generateTexts]
  rw [hfold]

/-- C1 counterexample: the claimed silent skip does not happen.  With an
empty `report_contents`, a slide form depending on the never-produced key
`r1` is nevertheless invoked (with the previous outputs), and a text form
depending on `r1` is collected into the single text call even though only
`r2` was produced — the text phase never reads dependencies. -/
theorem dependency_gating_counterexample :
    (generateSlides [⟨"s1", ["r1"]⟩] (fun _ c => c) [] "prev").2
      = [(⟨"s1", ["r1"]⟩, "prev")] ∧
    generateTexts [⟨"t1", ["r1"]⟩] [⟨"t1"⟩] [("r2", "c")] "prev"
      = some (.fromReports [("r2", "c")], [⟨"t1"⟩]) := by
  constructor <;> rfl

/-- C1 (amended): dependency gating holds only for the slide phase and
only while `report_contents` is non-empty.  With stored reports whose keys
are truthy and duplicate-free, a slide form with `dependencies = [X]` is
invoked exactly once when `X` was produced (with `X`'s content) and never
otherwise; with no stored reports every slide form is invoked once with
the previous outputs; and the text phase ignores dependencies entirely. -/
theorem dependency_gating (f : FormDescriptor) (X : String)
    (g : String → String → String) (rc : List (String × String)) (prev : String)
    (hdep : f.dependencies = [X])
    (htru : ∀ k ∈ dictKeys rc, pyTruthyStr k = true)
    (hnd : (dictKeys rc).Nodup) :
    (rc ≠ [] →
      (generateSlides [f] g rc prev).2
        = (match dictGet rc X with
           | some v => [(f, v)]
           | none => [])) ∧
    (generateSlides [f] g [] prev).2 = [(f, prev)] ∧
    (∀ (tf : List FormDescriptor) (fts : List FormType) (prev' : String)
        (deps : FormDescriptor → List String),
      generateTexts (tf.map (fun d => ⟨d.key, deps d⟩)) fts rc prev'
        = generateTexts tf fts rc prev') := by
  refine ⟨?_, rfl, fun tf fts prev' deps => generateTexts_deps_irrelevant tf fts rc prev' deps⟩
  intro hne
  have hempty : rc.isEmpty = false := by
    cases rc with
    | nil => exact absurd rfl hne
    | cons a l => rfl
  have hrun : (generateSlides [f] g rc prev).2
      = (rc.foldl (fun st (kv : String × String) => createSlides [f] g kv.2 (some kv.1) st)
          ([], [])).2 := by
    simp [generateSlides, hempty]
  rw [hrun, createSlides_trace f X g hdep rc ([], []) htru, filter_key_dictGet X rc hnd]
  cases dictGet rc X with
  | none => rfl
  | some v => rfl

/-- Witness for the amended gating theorem: with reports `r1`, `r2`
stored, the form depending on `r1` is invoked exactly once, with `r1`'s
content. -/
theorem dependency_gating_witness :
    (∀ k ∈ dictKeys [("r1", "body"), ("r2", "other")], pyTruthyStr k = true) ∧
    (generateSlides [⟨"s1", ["r1"]⟩] (fun _ c => c)
        [("r1", "body"), ("r2", "other")] "prev").2
      = [(⟨"s1", ["r1"]⟩, "body")] := by
  refine ⟨by decide, ?_⟩
  have h := (dependency_gating ⟨"s1", ["r1"]⟩ "r1" (fun _ c => c)
    [("r1", "body"), ("r2", "other")] "prev" rfl (by decide) (by decide)).1
    (by decide)
  rw [h]
  rfl

end PGPT
